import Mathlib

/-! gatsby-background-image: helper and style utilities

A shallow embedding of `src/lib/HelperUtils.js` and `src/StyleUtils.js`.

JavaScript values are modelled in three layers: primitives (`JSPrim`), plain
objects whose properties hold primitives (`JSObj`: an image descriptor, a style
object) and the values a prop can take (`JSVal`: a primitive, one object, or an
array of objects).  Numbers are integers; a string is a Lean `String`.
A thrown `TypeError` is the `error` case of `Except`; a function none of whose
steps can throw is a plain function.  Console output (`console.warn`,
`console.log`) is not part of the modelled state.

A string is read character by character.  On well-formed strings this agrees
with JavaScript, which reads UTF-16 code units: a search string or a regular
expression class of the code modelled here never matches half a surrogate pair.

The image cache and the image probe live in `ImageUtils.js`, which is not
among the sources; the definitions that stand for them are modelled from the
specification and say so.
-/

namespace GatsbyBackgroundImage

/-! ## Values -/

/-- JavaScript primitive values (numbers restricted to integers). -/
inductive JSPrim where
  | undefined
  | null
  | bool (b : Bool)
  | num (n : Int)
  | str (s : String)
  deriving DecidableEq, Repr

/-- A plain object with primitive property values, keys in insertion order. -/
abbrev JSObj := List (String × JSPrim)

/-- The values a prop may hold: a primitive, a single object, an array of objects. -/
inductive JSVal where
  | prim (p : JSPrim)
  | obj (o : JSObj)
  | arr (xs : List JSObj)
  deriving DecidableEq, Repr

/-- A props object: property name to value, keys in insertion order. -/
abbrev Props := List (String × JSVal)

/-- The exceptions the modelled code can raise. -/
inductive JSError where
  | typeError
  deriving DecidableEq, Repr

/-- ToBoolean on primitives. -/
def JSPrim.truthy : JSPrim → Bool
  | .undefined => false
  | .null => false
  | .bool b => b
  | .num n => n != 0
  | .str s => s != ""

/-- ToBoolean: objects and arrays are always truthy. -/
def JSVal.truthy : JSVal → Bool
  | .prim p => p.truthy
  | .obj _ => true
  | .arr _ => true

/-- ToString on primitives, as performed by a template literal. -/
def JSPrim.toStr : JSPrim → String
  | .undefined => "undefined"
  | .null => "null"
  | .bool true => "true"
  | .bool false => "false"
  | .num n => toString n
  | .str s => s

/-- Property read `o[k]` on a plain object: `undefined` when the key is missing. -/
def JSObj.get (o : JSObj) (k : String) : JSPrim :=
  match o.lookup k with
  | some v => v
  | none => .undefined

/-- Property read `props[k]`: `undefined` when the key is missing. -/
def Props.get (p : Props) (k : String) : JSVal :=
  match p.lookup k with
  | some v => v
  | none => .prim .undefined

/-- Assignment `props[k] = v`: overwrites in place, or appends a new key. -/
def Props.set : Props → String → JSVal → Props
  | [], k, v => [(k, v)]
  | (k', v') :: rest, k, v =>
    if k' = k then (k, v) :: rest else (k', v') :: Props.set rest k v

/-- Removal `delete props[k]`. -/
def Props.delete (p : Props) (k : String) : Props :=
  p.filter (fun kv => kv.1 != k)

/-- `Array.isArray(v)`. -/
def JSVal.isArray : JSVal → Bool
  | .arr _ => true
  | _ => false

/-- `typeof v !== 'undefined'` on a primitive. -/
def JSPrim.isDefined : JSPrim → Bool
  | .undefined => false
  | _ => true

/-- Indexed read `v[i]`.  Reading from `undefined` or `null` throws; a string
yields its `i`-th character; other primitives have no indexed properties. -/
def JSVal.index (v : JSVal) (i : Nat) : Except JSError JSVal :=
  match v with
  | .arr xs =>
    match xs[i]? with
    | some o => .ok (.obj o)
    | none => .ok (.prim .undefined)
  | .obj o => .ok (.prim (o.get (toString i)))
  | .prim (.str s) =>
    match s.data[i]? with
    | some c => .ok (.prim (.str (String.singleton c)))
    | none => .ok (.prim .undefined)
  | .prim .undefined => .error .typeError
  | .prim .null => .error .typeError
  | .prim _ => .ok (.prim .undefined)

/-- Named read `v[k]` for a key `k` that is neither an array index nor a
built-in property such as `length`.  Reading from `undefined` or `null` throws. -/
def JSVal.getNamed (v : JSVal) (k : String) : Except JSError JSPrim :=
  match v with
  | .obj o => .ok (o.get k)
  | .arr _ => .ok .undefined
  | .prim .undefined => .error .typeError
  | .prim .null => .error .typeError
  | .prim _ => .ok .undefined

/-- The execution context: whether `window` exists, and what
`window.matchMedia(query).matches` answers for each query string. -/
structure Env where
  isBrowser : Bool
  matchMedia : String → Bool

/-! ## HelperUtils.js -/

/-- What `variant.media ? withMedia : without` tests. -/
def hasMedia (variant : JSObj) : Bool :=
  (variant.get "media").truthy

/-- `groupByMedia` (HelperUtils.js 78-92): each variant is pushed onto
`withMedia` or `without`, and the result is `[...withMedia, ...without]`.
The `console.warn` in between does not touch either array. -/
def groupByMedia (imageVariants : List JSObj) : List JSObj :=
  let acc := imageVariants.foldl
    (fun (acc : List JSObj × List JSObj) variant =>
      if (variant.get "media").truthy then (acc.1 ++ [variant], acc.2)
      else (acc.1, acc.2 ++ [variant]))
    ([], [])
  acc.1 ++ acc.2

/-- A call `groupByMedia(v)` on an arbitrary value: anything but an array has
no `forEach`, and the call throws. -/
def groupByMediaOf : JSVal → Except JSError JSVal
  | .arr xs => .ok (.arr (groupByMedia xs))
  | _ => .error .typeError

/-- `hasImageArray` (HelperUtils.js 100-102), as the truth value of its result. -/
def hasImageArray (props : Props) : Bool :=
  ((props.get "fluid").truthy && (props.get "fluid").isArray) ||
  ((props.get "fixed").truthy && (props.get "fixed").isArray)

/-- `hasArtDirectionFluidArray` (HelperUtils.js 110-113), as a truth value. -/
def hasArtDirectionFluidArray (props : Props) : Bool :=
  (props.get "fluid").truthy &&
  match props.get "fluid" with
  | .arr xs => xs.any (fun fluidImage => (fluidImage.get "media").isDefined)
  | _ => false

/-- `hasArtDirectionFixedArray` (HelperUtils.js 121-124), as a truth value. -/
def hasArtDirectionFixedArray (props : Props) : Bool :=
  (props.get "fixed").truthy &&
  match props.get "fixed" with
  | .arr xs => xs.any (fun fixedImage => (fixedImage.get "media").isDefined)
  | _ => false

/-- `hasArtDirectionArray` (HelperUtils.js 131-132). -/
def hasArtDirectionArray (props : Props) : Bool :=
  hasArtDirectionFluidArray props || hasArtDirectionFixedArray props

/-- `matchesMedia` (HelperUtils.js 241-242):
`media && isBrowser() && window.matchMedia(media).matches`. -/
def matchesMedia (env : Env) (variant : JSObj) : JSPrim :=
  let media := variant.get "media"
  if media.truthy then
    if env.isBrowser then .bool (env.matchMedia media.toStr) else .bool false
  else media

/-- What a call of `getCurrentSrcData` leaves behind: the value it returns and
the contents of the array (or other value) `currentData` refers to at that
moment.  `Array.prototype.reverse` reverses in place, so the second differs
from the argument whenever the array was reversed an odd number of times. -/
structure SrcData where
  value : JSVal
  currentData : JSVal
  deriving DecidableEq, Repr

/-- `getCurrentSrcData` (HelperUtils.js 251-265).  `currentData.reverse()`
reverses the array in place and returns it; on anything but an array the
method does not exist and the call throws. -/
def getCurrentSrcData (env : Env) (fluid fixed : JSVal) : Except JSError SrcData :=
  let currentData := if fluid.truthy then fluid else fixed
  if hasImageArray [("fluid", fluid), ("fixed", fixed)] then
    if env.isBrowser && hasArtDirectionArray [("fluid", fluid), ("fixed", fixed)] then
      match currentData with
      | .arr xs =>
        let reversed := xs.reverse
        match reversed.findIdx? (fun variant => (matchesMedia env variant).truthy) with
        | some foundMedia =>
          let again := reversed.reverse
          (JSVal.index (.arr again) foundMedia).map (fun v => ⟨v, .arr again⟩)
        | none =>
          (JSVal.index (.arr reversed) 0).map (fun v => ⟨v, .arr reversed⟩)
      | _ => .error .typeError
    else
      (currentData.index 0).map (fun v => ⟨v, currentData⟩)
  else
    .ok ⟨currentData, currentData⟩

/-- `getImageSrcKey` (HelperUtils.js 229-233): `data ? data.src || null : null`. -/
def getImageSrcKey (env : Env) (fluid fixed : JSVal) : Except JSError JSPrim :=
  match getCurrentSrcData env fluid fixed with
  | .error e => .error e
  | .ok r =>
    if r.value.truthy then
      match r.value.getNamed "src" with
      | .error e => .error e
      | .ok src => .ok (if src.truthy then src else .null)
    else .ok .null

/-- Lines 37-44 of `convertProps` on their own: a truthy `resolutions` is
assigned to `fixed` and a truthy `sizes` to `fluid`, and the legacy key is
deleted. -/
def renamedProps (props : Props) : Props :=
  let convertedProps : Props := props
  let resolutions := convertedProps.get "resolutions"
  let sizes := convertedProps.get "sizes"
  let convertedProps :=
    if resolutions.truthy then (convertedProps.set "fixed" resolutions).delete "resolutions"
    else convertedProps
  if sizes.truthy then (convertedProps.set "fluid" sizes).delete "sizes"
  else convertedProps

/-- `convertProps` (HelperUtils.js 33-70).  `resolutions`, `sizes`, `fixed` and
`fluid` are read from the copy before anything is renamed; the two guards
at the end test those values and the original `props`.  The `classId`
branch only logs a deprecation notice.  All writes go to the copy
`convertedProps`; `props` itself is only read. -/
def convertProps (props : Props) : Except JSError Props :=
  let convertedProps : Props := props
  let resolutions := convertedProps.get "resolutions"
  let sizes := convertedProps.get "sizes"
  let fixed := convertedProps.get "fixed"
  let fluid := convertedProps.get "fluid"
  let convertedProps :=
    if resolutions.truthy then (convertedProps.set "fixed" resolutions).delete "resolutions"
    else convertedProps
  let convertedProps :=
    if sizes.truthy then (convertedProps.set "fluid" sizes).delete "sizes"
    else convertedProps
  let afterFluid : Except JSError Props :=
    if fluid.truthy && hasArtDirectionFluidArray props then
      (groupByMediaOf (convertedProps.get "fluid")).map (fun g => convertedProps.set "fluid" g)
    else .ok convertedProps
  match afterFluid with
  | .error e => .error e
  | .ok convertedProps =>
    if fixed.truthy && hasArtDirectionFixedArray props then
      (groupByMediaOf (convertedProps.get "fixed")).map (fun g => convertedProps.set "fixed" g)
    else .ok convertedProps

/-- ToInt32: the value reduced modulo 2^32 into [-2^31, 2^31 - 1]. -/
def toInt32 (x : Int) : Int :=
  (x + 2147483648) % 4294967296 - 2147483648

/-- The operator `a << n` on integers, for a shift count below 32. -/
def shl32 (a : Int) (n : Nat) : Int :=
  toInt32 (toInt32 a * 2 ^ n)

/-- The UTF-16 code units of a string. -/
def utf16Units (s : String) : List Nat :=
  s.data.flatMap (fun c =>
    if c.toNat < 65536 then [c.toNat]
    else [55296 + (c.toNat - 65536) / 1024, 56320 + (c.toNat - 65536) % 1024])

/-- The reduction inside `hashString` (HelperUtils.js 189-196) over the code
units of the string: `hash = (hash << 5) - hash + item.charCodeAt(0)`, then
`hash | 0`, starting from 0. -/
def hashUnits (units : List Nat) : Int :=
  units.foldl (fun (hash : Int) (item : Nat) => toInt32 (shl32 hash 5 - hash + (item : Int))) 0

/-- `hashString` (HelperUtils.js 187-196): `isString(str) && [].reduce.call(...)`. -/
def hashString : JSVal → JSPrim
  | .prim (.str s) => .num (hashUnits (utf16Units s))
  | _ => .bool false

/-- The sum the specification names: `c_i * 31^(n-1-i)` over the code units
`c_0 .. c_(n-1)`, as an unbounded integer. -/
def javaSum (units : List Nat) : Int :=
  ((List.range units.length).map
    (fun i => (units.getD i 0 : Int) * 31 ^ (units.length - 1 - i))).sum

/-- Java's `String.hashCode()` as the specification words it: that sum reduced
modulo 2^32 into the signed 32-bit range. -/
def javaHashCode (units : List Nat) : Int :=
  toInt32 (javaSum units)

/-- The key the specification gives for the selected value: the `src` of the
variant when that is a non-empty string, `null` in every other case. -/
def expectedSrcKey (data : JSVal) : JSPrim :=
  match data with
  | .obj o =>
    match o.get "src" with
    | .str s => if s = "" then .null else .str s
    | _ => .null
  | _ => .null

/-- The characters `\w` matches: ASCII letters, digits and the underscore. -/
def isWordChar (c : Char) : Bool :=
  c.isAlphanum || c == '_'

/-- The string part of `toKebabCase`: `.replace(/\s|\W+/g, '')` drops every
character that is not a word character (white space is not one), then
`.replace(/[A-Z]/g, m => '-' + m.toLowerCase())`. -/
def kebabString (s : String) : String :=
  String.mk ((s.data.filter isWordChar).flatMap
    (fun c => if c.isUpper then ['-', c.toLower] else [c]))

/-- `toKebabCase` (HelperUtils.js 155-159): `isString(str) && ...`. -/
def toKebabCase : JSVal → JSPrim
  | .prim (.str s) => .str (kebabString s)
  | _ => .bool false

/-- `Object.keys` of a plain object whose keys are not array indices: the keys
in insertion order, each once. -/
def JSObj.keys (o : JSObj) : List String :=
  (o.map Prod.fst).eraseDups

/-- `kebabifyBackgroundStyles` (StyleUtils.js 157-176).  An array is an
`Object` whose keys are its indices, none of which starts with `background`. -/
def kebabifyBackgroundStyles : JSVal → String
  | .prim (.str s) => s
  | .obj styles =>
    ((JSObj.keys styles).filter
      (fun key => "background".data.isPrefixOf key.data && styles.get key != .str "")).foldl
      (fun resultingStyles key =>
        resultingStyles ++ (toKebabCase (.prim (.str key))).toStr ++ ": " ++
          (styles.get key).toStr ++ ";\n")
      ""
  | .arr _ => ""
  | .prim _ => ""

/-- `vendorPrefixBackgroundStyles` (StyleUtils.js 119-149); a parameter that is
`undefined` takes its default. -/
def vendorPrefixBackgroundStyles (transitionDelay fadeIn : JSPrim) : String :=
  let transitionDelay := if transitionDelay = .undefined then JSPrim.str "0.25s" else transitionDelay
  let fadeIn := if fadeIn = .undefined then JSPrim.bool true else fadeIn
  if fadeIn.truthy then
    "transition-delay: " ++ transitionDelay.toStr ++ ";\n            transition: opacity 0.5s;"
  else "transition: none;"

/-- The destructured argument of `createPseudoStyles`. -/
structure PseudoStyleArgs where
  classId : JSPrim
  transitionDelay : JSPrim
  bgImage : JSPrim
  lastImage : JSPrim
  nextImage : JSPrim
  afterOpacity : JSPrim
  bgColor : JSPrim
  fadeIn : JSPrim
  backgroundStyles : JSVal

/-- The interpolation `bgColor && background-color: bgColor;` of both blocks. -/
def bgColorDeclaration (bgColor : JSPrim) : String :=
  if bgColor.truthy then "background-color: " ++ bgColor.toStr ++ ";" else bgColor.toStr

/-- Lines 68-79 of the template: the rule shared by both pseudo-elements. -/
def pseudoSharedBlock (a : PseudoStyleArgs) : String :=
  "          .gatsby-background-image-" ++ a.classId.toStr ++ ":before,\n" ++
  "          .gatsby-background-image-" ++ a.classId.toStr ++ ":after \x7b\n" ++
  "            content: '';\n" ++
  "            display: block;\n" ++
  "            position: absolute;\n" ++
  "            width: 100%;\n" ++
  "            height: 100%;\n" ++
  "            top: 0;\n" ++
  "            left: 0;\n" ++
  "            " ++ vendorPrefixBackgroundStyles a.transitionDelay a.fadeIn ++ "\n" ++
  "            " ++ kebabifyBackgroundStyles a.backgroundStyles ++ "\n" ++
  "          \x7d\n"

/-- Lines 80-94 of the template: the rule of the `:before` pseudo-element. -/
def pseudoBeforeBlock (a : PseudoStyleArgs) : String :=
  "          .gatsby-background-image-" ++ a.classId.toStr ++ ":before \x7b\n" ++
  "            z-index: -100;\n" ++
  "            " ++
    (if !a.afterOpacity.truthy && a.lastImage != .str "" then
      "background-image: url(" ++ a.lastImage.toStr ++ ");" else "") ++ "\n" ++
  "            " ++
    (if a.afterOpacity.truthy && (a.nextImage.truthy || a.bgImage.truthy) then
      "background-image: url(" ++
        (if a.nextImage.truthy then a.nextImage else a.bgImage).toStr ++ ");" else "") ++ "\n" ++
  "            " ++ bgColorDeclaration a.bgColor ++ "\n" ++
  "            opacity: " ++ a.afterOpacity.toStr ++ "; \n" ++
  "          \x7d\n"

/-- Lines 95-108 of the template: the rule of the `:after` pseudo-element. -/
def pseudoAfterBlock (a : PseudoStyleArgs) : String :=
  "          .gatsby-background-image-" ++ a.classId.toStr ++ ":after \x7b\n" ++
  "            z-index: -101;\n" ++
  "            " ++
    (if a.afterOpacity.truthy && a.lastImage != .str "" then
      "background-image: url(" ++ a.lastImage.toStr ++ ");" else "") ++ "\n" ++
  "            " ++
    (if !a.afterOpacity.truthy && (a.bgImage.truthy || a.nextImage.truthy) then
      "background-image: url(" ++
        (if a.bgImage.truthy then a.bgImage else a.nextImage).toStr ++ ");" else "") ++ "\n" ++
  "            " ++ bgColorDeclaration a.bgColor ++ "\n" ++
  "          \x7d\n"

/-- `createPseudoStyles` (StyleUtils.js 56-110): the template literal of lines
67-109, cut at the three rules it consists of. -/
def createPseudoStyles (a : PseudoStyleArgs) : String :=
  "\n" ++ pseudoSharedBlock a ++ pseudoBeforeBlock a ++ pseudoAfterBlock a ++ "        "

/-- Whether `needle` occurs in `text` as a contiguous piece. -/
def occursIn (needle text : String) : Prop :=
  needle.data <:+: text.data

instance (needle text : String) : Decidable (occursIn needle text) :=
  inferInstanceAs (Decidable (needle.data <:+: text.data))

/-- `Array.prototype.join(separator)`: the elements converted to strings,
`undefined` and `null` to the empty string, with the separator written
before every element but the first. -/
def jsJoin (separator : String) (items : List JSPrim) : String :=
  (items.foldl
    (fun (acc : String × Bool) (item : JSPrim) =>
      let element := match item with
        | .undefined => ""
        | .null => ""
        | p => p.toStr
      (if acc.2 then acc.1 ++ element else acc.1 ++ separator ++ element, false))
    ("", true)).1

/-- `filteredJoin` (HelperUtils.js 204-205):
`arrayToJoin.filter(item => item !== '').join()`, the separator defaulting
to a comma. -/
def filteredJoin (arrayToJoin : List JSPrim) : String :=
  jsJoin "," (arrayToJoin.filter (fun item => item != .str ""))

/-- The declaration `background-image: url(image);` of the template. -/
def imageDeclaration (image : JSPrim) : String :=
  "background-image: url(" ++ image.toStr ++ ");"

/-- The image the specification gives the `:before` rule: with a truthy
`afterOpacity` it is `nextImage`, or `bgImage` if `nextImage` is empty;
otherwise it is `lastImage`.  An empty image gives no declaration. -/
def beforeImage (a : PseudoStyleArgs) : Option JSPrim :=
  if a.afterOpacity.truthy then
    if a.nextImage.truthy then some a.nextImage
    else if a.bgImage.truthy then some a.bgImage
    else none
  else if a.lastImage != .str "" then some a.lastImage
  else none

/-- The image the specification gives the `:after` rule: with a truthy
`afterOpacity` it is `lastImage`; otherwise it is `bgImage`, or `nextImage`
if `bgImage` is empty.  An empty image gives no declaration. -/
def afterImage (a : PseudoStyleArgs) : Option JSPrim :=
  if a.afterOpacity.truthy then
    if a.lastImage != .str "" then some a.lastImage else none
  else if a.bgImage.truthy then some a.bgImage
  else if a.nextImage.truthy then some a.nextImage
  else none

/-- The text a rule holds for its image: one declaration, or nothing. -/
def declarationOf : Option JSPrim → String
  | some image => imageDeclaration image
  | none => ""

/-- The number of positions of `text` at which `needle` starts. -/
def occurrences (needle : List Char) : List Char → Nat
  | [] => if needle.isPrefixOf [] then 1 else 0
  | c :: cs => (if needle.isPrefixOf (c :: cs) then 1 else 0) + occurrences needle cs

/-- The upper-case ASCII letters. -/
def asciiUpper : List Char :=
  "ABCDEFGHIJKLMNOPQRSTUVWXYZ".data

/-- The lower-case ASCII letters. -/
def asciiLower : List Char :=
  "abcdefghijklmnopqrstuvwxyz".data

/-- The ASCII digits. -/
def asciiDigits : List Char :=
  "0123456789".data

/-- The code points `\s` matches in JavaScript: tab, line feed, vertical tab,
form feed, carriage return, space, no-break space, the Unicode space
separators, the line and paragraph separators and the byte order mark. -/
def isJsWhiteSpace (c : Char) : Bool :=
  [9, 10, 11, 12, 13, 32, 160, 5760, 8192, 8193, 8194, 8195, 8196, 8197, 8198, 8199, 8200,
    8201, 8202, 8232, 8233, 8239, 8287, 12288, 65279].contains c.toNat

/-- Kebab case as the specification words it: every character other than an
ASCII letter, digit or underscore is removed, then every upper-case ASCII
letter is replaced by a hyphen followed by its lower-case form. -/
def kebabCaseOf (s : List Char) : List Char :=
  (s.filter (fun c => c ∈ asciiUpper ∨ c ∈ asciiLower ∨ c ∈ asciiDigits ∨ c = '_')).flatMap
    (fun c => if c ∈ asciiUpper then ['-', c.toLower] else [c])

/-- The lines the specification describes for a style object: in key order,
one line `<kebab-cased key>: <value>;` with a line break for each key that
begins with `background` and whose value is not the empty string. -/
def backgroundLines (styles : JSObj) : List String :=
  ((JSObj.keys styles).filter
    (fun key => "background".data.isPrefixOf key.data && styles.get key != .str "")).map
    (fun key => String.mk (kebabCaseOf key.data) ++ ": " ++ (styles.get key).toStr ++ ";\n")

/-- The first replacement of `toCamelCase`,
`.replace(/(?:^\w|-|[A-Z]|\b\w)/g, (letter, index) => ...)`, read from left
to right.  Every alternative matches one character: a word character at
index 0, a hyphen, an upper-case letter, or a word character that follows a
non-word character or the start.  A match at index 0 is lower-cased, any
other match upper-cased; `atStart` says whether the index is 0 and
`prevWord` whether the character before is a word character. -/
def camelFirstPass (atStart prevWord : Bool) : List Char → List Char
  | [] => []
  | c :: cs =>
    let matched :=
      (atStart && isWordChar c) || c == '-' || c.isUpper || (!prevWord && isWordChar c)
    (if matched then (if atStart then c.toLower else c.toUpper) else c) ::
      camelFirstPass false (isWordChar c) cs

/-- The string part of `toCamelCase` (HelperUtils.js 142-147): `toLowerCase()`,
the first replacement, then `.replace(/\s|\W+/g, '')`, which drops every
character that is not a word character.  `toLowerCase` is modelled on the
ASCII letters; other characters are left as they are. -/
def camelString (s : String) : String :=
  String.mk ((camelFirstPass true false (s.data.map Char.toLower)).filter isWordChar)

/-- `toCamelCase` (HelperUtils.js 140-147): `isString(str) && ...`. -/
def toCamelCase : JSVal → JSPrim
  | .prim (.str s) => .str (camelString s)
  | _ => .bool false

/-- A word with its first letter upper-cased. -/
def capitalize : List Char → List Char
  | [] => []
  | c :: cs => c.toUpper :: cs

/-- Camel case as the specification words it: the first word followed by each
later word with its first letter upper-cased. -/
def camelOfWords : List (List Char) → List Char
  | [] => []
  | word :: later => word ++ (later.map capitalize).flatten

/-- CSS kebab case: the words joined by single hyphens. -/
def kebabOfWords (words : List (List Char)) : List Char :=
  List.intercalate ['-'] words

/-- What `stringToArray` is handed and gives back: a value of the kind above,
or an array of strings (a list of class names). -/
inductive ArrayArg where
  | val (v : JSVal)
  | strings (items : List String)
  deriving DecidableEq, Repr

/-- `String.prototype.includes(search)`. -/
def jsIncludes (s search : String) : Bool :=
  decide (search.data <:+: s.data)

/-- The loop of `String.prototype.split` for a non-empty separator: at each
position, a match of the separator closes the current piece and the scan
goes on behind the match; otherwise the character joins the piece.  The
fuel bounds the characters left to read. -/
def splitLoop (separator : List Char) : Nat → List Char → List Char → List (List Char)
  | 0, piece, rest => [piece ++ rest]
  | _ + 1, piece, [] => [piece]
  | fuel + 1, piece, c :: cs =>
    if separator.isPrefixOf (c :: cs) then
      piece :: splitLoop separator fuel [] ((c :: cs).drop separator.length)
    else splitLoop separator fuel (piece ++ [c]) cs

/-- `String.prototype.split(separator)` without a limit: an empty separator
cuts the string into its characters. -/
def jsSplit (s separator : String) : List String :=
  if separator = "" then s.data.map String.singleton
  else (splitLoop separator.data s.data.length [] s.data).map String.mk

/-- `stringToArray` (HelperUtils.js 168-179); the delimiter defaults to a
single space and is converted to a string by `includes` and `split`. -/
def stringToArray (str : ArrayArg) (delimiter : JSPrim) : ArrayArg :=
  let delimiter := if delimiter = .undefined then JSPrim.str " " else delimiter
  match str with
  | .strings items => .strings items
  | .val (.arr xs) => .val (.arr xs)
  | .val (.prim (.str s)) =>
    if jsIncludes s delimiter.toStr then .strings (jsSplit s delimiter.toStr)
    else .strings [s]
  | .val _ => .val (.prim (.bool false))

/-- The invariant of `splitLoop`: the separator does not start at any position
inside the current piece. -/
def NoMatchInPiece (sep piece rest : List Char) : Prop :=
  ∀ k, k < piece.length → ¬ sep <+: (piece ++ rest).drop k

/-- Modelled from the spec: the image cache and the callback bookkeeping of
image loading (sections 3 and 4.3); `ImageUtils.js`, which holds the cache
and creates the image probe, is not among the sources.  The state is the
list of cache keys marked as loaded, with the number of calls the
caller-supplied load and error callbacks have received. -/
structure LoaderState where
  loaded : List String
  onLoadCalls : Nat
  onErrorCalls : Nat
  deriving DecidableEq, Repr

/-- Modelled from the spec: the two events an off-screen image probe can
report (section 4.3); the probe itself is built in `ImageUtils.js`, which
is not among the sources. -/
inductive ProbeEvent where
  | load
  | error
  deriving DecidableEq, Repr

/-- Modelled from the spec: the cache lookup of section 3, "has this image
already finished loading"; `inImageCache` of `ImageUtils.js` is not among
the sources. -/
def inImageCache (st : LoaderState) (key : String) : Bool :=
  st.loaded.contains key

/-- Modelled from the spec: the handlers attached to the image probe (section
4.3; `createPictureRef` of `ImageUtils.js` is not among the sources): "on
success, marks the cache key as loaded and triggers a caller-supplied
callback; on failure, triggers a separate error callback without marking
the cache". -/
def probeEvent (key : String) (st : LoaderState) : ProbeEvent → LoaderState
  | .load => { st with loaded := key :: st.loaded, onLoadCalls := st.onLoadCalls + 1 }
  | .error => { st with onErrorCalls := st.onErrorCalls + 1 }

/-- Modelled from the spec: one attempt to load an image (section 4.3; the
loading code of `ImageUtils.js` and of the component is not among the
sources).  The cache key is what `getImageSrcKey` returns.  Without a
source no callback fires; a source already marked cached counts as loaded
and no probe is built; otherwise the probe reports its single event. -/
def loadImage (st : LoaderState) (key : JSPrim) (outcome : ProbeEvent) : LoaderState :=
  match key with
  | .str k => if inImageCache st k then st else probeEvent k st outcome
  | _ => st

/-- No occurrence of `n` in `a ++ b` starts in `a` and ends in `b`. -/
def NoStraddle (n a b : List Char) : Prop :=
  ∀ u v, n = u ++ v → u ≠ [] → v ≠ [] → u <:+ a → ¬ v <+: b

/-! ## Example inputs -/

/-- A browser whose viewport matches exactly the media query `q`. -/
def browserMatching (q : String) : Env :=
  ⟨true, fun query => query == q⟩

/-- A context without `window` (static pre-render). -/
def serverSide : Env :=
  ⟨false, fun _ => false⟩

/-- Image descriptor `{ src: 'small.jpg', media: '(max-width: 600px)' }`. -/
def smallVariant : JSObj :=
  [("src", .str "small.jpg"), ("media", .str "(max-width: 600px)")]

/-- Image descriptor `{ src: 'large.jpg', media: '(min-width: 601px)' }`. -/
def largeVariant : JSObj :=
  [("src", .str "large.jpg"), ("media", .str "(min-width: 601px)")]

/-- Image descriptor `{ src: 'default.jpg' }`, without a media condition. -/
def plainVariant : JSObj :=
  [("src", .str "default.jpg")]

/-- Arguments as the component passes them once the image has loaded:
`afterOpacity` 1, the next image known, no previous image. -/
def loadedArgs : PseudoStyleArgs where
  classId := .str "test"
  transitionDelay := .str "0.5s"
  bgImage := .str "a.jpg"
  lastImage := .str ""
  nextImage := .str "n.jpg"
  afterOpacity := .num 1
  bgColor := .str "red"
  fadeIn := .bool true
  backgroundStyles := .obj [("backgroundRepeat", .str "'repeat-y'"), ("backgroundSize", .str "")]

/-- Arguments while the next image is still loading: `afterOpacity` 0, and a
previous, a current and a next image all known. -/
def fadingArgs : PseudoStyleArgs where
  classId := .str "test"
  transitionDelay := .undefined
  bgImage := .str "a.jpg"
  lastImage := .str "l.jpg"
  nextImage := .str "n.jpg"
  afterOpacity := .num 0
  bgColor := .str ""
  fadeIn := .undefined
  backgroundStyles := .prim .undefined

/-! ## Theorems -/

theorem groupByMedia_fold (vs a b : List JSObj) :
    (vs.foldl
      (fun (acc : List JSObj × List JSObj) variant =>
        if (variant.get "media").truthy then (acc.1 ++ [variant], acc.2)
        else (acc.1, acc.2 ++ [variant]))
      (a, b)) =
    (a ++ vs.filter hasMedia, b ++ vs.filter (fun v => !hasMedia v)) := by
  induction vs generalizing a b with
  | nil => simp
  | cons v vs ih =>
    rw [List.foldl_cons]
    by_cases h : (v.get "media").truthy = true
    · simp [h, ih, hasMedia]
    · simp [h, ih, hasMedia]

theorem groupByMedia_eq_filter (vs : List JSObj) :
    groupByMedia vs = vs.filter hasMedia ++ vs.filter (fun v => !hasMedia v) := by
  unfold groupByMedia
  rw [groupByMedia_fold]
  simp

/-- C1: `groupByMedia` is a stable partition: its result is the media-qualified
variants of the input in their original order followed by the unqualified
ones in their original order; it is a permutation of the input; and no
unqualified variant stands before a qualified one. -/
theorem groupByMedia_stable_partition (vs : List JSObj) :
    groupByMedia vs = vs.filter hasMedia ++ vs.filter (fun v => !hasMedia v) ∧
    (groupByMedia vs).Perm vs ∧
    (groupByMedia vs).Pairwise (fun a b => hasMedia b = true → hasMedia a = true) := by
  refine ⟨groupByMedia_eq_filter vs, ?_, ?_⟩
  · rw [groupByMedia_eq_filter]
    exact List.filter_append_perm hasMedia vs
  · rw [groupByMedia_eq_filter, List.pairwise_append]
    refine ⟨?_, ?_, ?_⟩
    · exact List.pairwise_of_forall_mem_list (fun a ha _ _ _ => (List.mem_filter.mp ha).2)
    · exact List.pairwise_of_forall_mem_list (fun a _ b hb hb' => by
        have := (List.mem_filter.mp hb).2
        simp [hb'] at this)
    · intro a ha b _ _
      exact (List.mem_filter.mp ha).2


/-- C2: in a browser whose viewport matches only the first of two
media-qualified variants, `getCurrentSrcData` returns the second one, whose
media condition does not match; the index found in the reversed array is
applied to the array reversed back. -/
theorem getCurrentSrcData_returns_unmatched :
    getCurrentSrcData (browserMatching "(max-width: 600px)")
        (.arr [smallVariant, largeVariant]) (.prim .undefined) =
      .ok ⟨.obj largeVariant, .arr [smallVariant, largeVariant]⟩ ∧
    (matchesMedia (browserMatching "(max-width: 600px)") smallVariant).truthy = true ∧
    (matchesMedia (browserMatching "(max-width: 600px)") largeVariant).truthy = false := by
  exact ⟨rfl, by decide, by decide⟩

/-- C3: in a browser in which no media condition matches, `getCurrentSrcData`
returns the last declared variant, not the first, and leaves the array
reversed; called again on the array it left behind, it returns the other
variant. -/
theorem getCurrentSrcData_no_match_returns_last :
    getCurrentSrcData (browserMatching "print")
        (.arr [smallVariant, plainVariant]) (.prim .undefined) =
      .ok ⟨.obj plainVariant, .arr [plainVariant, smallVariant]⟩ ∧
    getCurrentSrcData (browserMatching "print")
        (.arr [plainVariant, smallVariant]) (.prim .undefined) =
      .ok ⟨.obj smallVariant, .arr [smallVariant, plainVariant]⟩ ∧
    (matchesMedia (browserMatching "print") smallVariant).truthy = false ∧
    (matchesMedia (browserMatching "print") plainVariant).truthy = false := by
  exact ⟨rfl, rfl, by decide, by decide⟩

theorem hasImageArray_pair (fluid fixed : JSVal) :
    hasImageArray [("fluid", fluid), ("fixed", fixed)] =
      ((fluid.truthy && fluid.isArray) || (fixed.truthy && fixed.isArray)) := rfl

theorem isArray_false_of_not_truthy (v : JSVal) (h : v.truthy = false) : v.isArray = false := by
  cases v <;> simp_all [JSVal.truthy, JSVal.isArray]

@[simp] theorem truthy_arr (xs : List JSObj) : (JSVal.arr xs).truthy = true := rfl

@[simp] theorem truthy_obj (o : JSObj) : (JSVal.obj o).truthy = true := rfl

@[simp] theorem isArray_arr (xs : List JSObj) : (JSVal.arr xs).isArray = true := rfl

@[simp] theorem isArray_obj (o : JSObj) : (JSVal.obj o).isArray = false := rfl

@[simp] theorem isArray_prim (p : JSPrim) : (JSVal.prim p).isArray = false := rfl

@[simp] theorem index_arr_cons_zero (v : JSObj) (vs : List JSObj) :
    (JSVal.arr (v :: vs)).index 0 = .ok (.obj v) := by
  simp [JSVal.index]

/-- C4: outside a browser `getCurrentSrcData` returns the element at index 0
of a non-empty `fluid` array, or of a non-empty `fixed` array when `fluid`
is absent (falsy), whatever media conditions the variants carry, and leaves
the array as it was; a single descriptor, given as `fluid` or as `fixed`
next to no array, is returned itself. -/
theorem getCurrentSrcData_outside_browser (env : Env) (h : env.isBrowser = false) :
    (∀ (v : JSObj) (vs : List JSObj) (fixed : JSVal),
      getCurrentSrcData env (.arr (v :: vs)) fixed = .ok ⟨.obj v, .arr (v :: vs)⟩) ∧
    (∀ (fluid : JSVal) (v : JSObj) (vs : List JSObj), fluid.truthy = false →
      getCurrentSrcData env fluid (.arr (v :: vs)) = .ok ⟨.obj v, .arr (v :: vs)⟩) ∧
    (∀ (d : JSObj) (fixed : JSVal), fixed.isArray = false →
      getCurrentSrcData env (.obj d) fixed = .ok ⟨.obj d, .obj d⟩) ∧
    (∀ (fluid : JSVal) (d : JSObj), fluid.truthy = false →
      getCurrentSrcData env fluid (.obj d) = .ok ⟨.obj d, .obj d⟩) := by
  refine ⟨?_, ?_, ?_, ?_⟩
  · intro v vs fixed
    simp [getCurrentSrcData, hasImageArray_pair, h, Except.map]
  · intro fluid v vs hf
    simp [getCurrentSrcData, hasImageArray_pair, h, hf, Except.map]
  · intro d fixed hx
    simp [getCurrentSrcData, hasImageArray_pair, hx]
  · intro fluid d hf
    simp [getCurrentSrcData, hasImageArray_pair, hf]

/-- Witness for C4: the server-side context, with an art-directed array. -/
theorem getCurrentSrcData_outside_browser_witness :
    serverSide.isBrowser = false ∧
    getCurrentSrcData serverSide (.arr [smallVariant, plainVariant]) (.prim .undefined) =
      .ok ⟨.obj smallVariant, .arr [smallVariant, plainVariant]⟩ :=
  ⟨rfl, (getCurrentSrcData_outside_browser serverSide rfl).1 smallVariant [plainVariant]
    (.prim .undefined)⟩

/-- C5: an art-directed array supplied under the legacy name `sizes` reaches
`fluid` in its declared order, the unqualified variant still first, although
`groupByMedia` would put it last; supplied under `fluid` the same array is
regrouped.  The same holds of `resolutions` and `fixed`. -/
theorem convertProps_legacy_not_grouped :
    convertProps [("sizes", .arr [plainVariant, smallVariant])] =
      .ok [("fluid", .arr [plainVariant, smallVariant])] ∧
    convertProps [("resolutions", .arr [plainVariant, smallVariant])] =
      .ok [("fixed", .arr [plainVariant, smallVariant])] ∧
    groupByMedia [plainVariant, smallVariant] = [smallVariant, plainVariant] ∧
    convertProps [("fluid", .arr [plainVariant, smallVariant])] =
      .ok [("fluid", .arr [smallVariant, plainVariant])] ∧
    convertProps [("fixed", .arr [plainVariant, smallVariant])] =
      .ok [("fixed", .arr [smallVariant, plainVariant])] :=
  ⟨rfl, rfl, by decide, rfl, rfl⟩

/-- C6: given an art-directed `fixed` array together with a legacy
`resolutions` descriptor that is not an array, `convertProps` raises a
TypeError instead of returning the converted props: the guard tests the
original `fixed`, the grouping is applied to the renamed `resolutions`. -/
theorem convertProps_throws_on_mixed :
    convertProps [("fixed", .arr [smallVariant]), ("resolutions", .obj plainVariant)] =
      .error .typeError ∧
    convertProps [("fluid", .arr [smallVariant]), ("sizes", .obj plainVariant)] =
      .error .typeError :=
  ⟨rfl, rfl⟩

/-- C7: a single descriptor under `fluid` (or `fixed`) comes back from
`convertProps` as that descriptor, not as the one-element array which the
comment on line 61, "convert fluid & fixed to arrays so we only have to
work with arrays", announces: the wrapping of lines 53-59 is commented out
and only art-direction arrays pass through `groupByMedia`. -/
theorem convertProps_single_not_wrapped :
    convertProps [("fluid", .obj plainVariant)] = .ok [("fluid", .obj plainVariant)] ∧
    convertProps [("fixed", .obj plainVariant)] = .ok [("fixed", .obj plainVariant)] ∧
    ¬ (∃ p, convertProps [("fluid", .obj plainVariant)] = .ok p ∧
        p.get "fluid" = .arr [plainVariant]) := by
  refine ⟨rfl, rfl, ?_⟩
  rintro ⟨p, hp, hget⟩
  have h : convertProps [("fluid", .obj plainVariant)] = .ok [("fluid", .obj plainVariant)] := rfl
  rw [h] at hp
  cases hp
  exact absurd hget (by decide)

theorem Props.get_set_self (p : Props) (k : String) (v : JSVal) :
    (Props.set p k v).get k = v := by
  induction p with
  | nil => simp [Props.set, Props.get, List.lookup]
  | cons kv rest ih =>
    obtain ⟨k', v'⟩ := kv
    by_cases hk : k' = k
    · simp [Props.set, hk, Props.get, List.lookup]
    · have hk' : (k == k') = false := by simpa using fun h => hk h.symm
      simp only [Props.set, hk, if_false]
      simp only [Props.get, List.lookup, hk'] at ih ⊢
      exact ih

theorem Props.get_set_ne (p : Props) (k k' : String) (v : JSVal) (hne : k ≠ k') :
    (Props.set p k v).get k' = p.get k' := by
  induction p with
  | nil =>
    have h : (k' == k) = false := by simpa using fun h => hne h.symm
    simp [Props.set, Props.get, List.lookup, h]
  | cons kv rest ih =>
    obtain ⟨k₀, v₀⟩ := kv
    by_cases hk : k₀ = k
    · subst hk
      have h : (k' == k₀) = false := by simpa using fun h => hne h.symm
      simp [Props.set, Props.get, List.lookup, h]
    · simp only [Props.set, hk, if_false]
      by_cases hq : (k' == k₀) = true
      · simp [Props.get, List.lookup, hq]
      · have hq' : (k' == k₀) = false := by simpa using hq
        simp only [Props.get, List.lookup, hq'] at ih ⊢
        exact ih

theorem hasArtDirectionFixedArray_arr (props : Props)
    (h : hasArtDirectionFixedArray props = true) :
    ∃ xs, props.get "fixed" = .arr xs := by
  unfold hasArtDirectionFixedArray at h
  cases hx : props.get "fixed" with
  | arr xs => exact ⟨xs, rfl⟩
  | prim q => simp [hx] at h
  | obj o => simp [hx] at h

theorem hasArtDirectionFluidArray_arr (props : Props)
    (h : hasArtDirectionFluidArray props = true) :
    ∃ xs, props.get "fluid" = .arr xs := by
  unfold hasArtDirectionFluidArray at h
  cases hx : props.get "fluid" with
  | arr xs => exact ⟨xs, rfl⟩
  | prim q => simp [hx] at h
  | obj o => simp [hx] at h

theorem Props.get_delete_ne (p : Props) (k k' : String) (hne : k ≠ k') :
    (Props.delete p k).get k' = p.get k' := by
  induction p with
  | nil => rfl
  | cons kv rest ih =>
    obtain ⟨k₀, v₀⟩ := kv
    by_cases hk : k₀ = k
    · subst hk
      have h : (k' == k₀) = false := by simpa using fun h => hne h.symm
      have hd : Props.delete ((k₀, v₀) :: rest) k₀ = Props.delete rest k₀ := by
        simp [Props.delete]
      rw [hd, ih]
      simp [Props.get, List.lookup, h]
    · have hd : Props.delete ((k₀, v₀) :: rest) k = (k₀, v₀) :: Props.delete rest k := by
        simp [Props.delete, hk]
      rw [hd]
      by_cases hq : (k' == k₀) = true
      · simp [Props.get, List.lookup, hq]
      · have hq' : (k' == k₀) = false := by simpa using hq
        simp only [Props.get, List.lookup, hq'] at ih ⊢
        exact ih

theorem Props.get_delete_self (p : Props) (k : String) :
    (Props.delete p k).get k = .prim .undefined := by
  induction p with
  | nil => rfl
  | cons kv rest ih =>
    obtain ⟨k₀, v₀⟩ := kv
    by_cases hk : k₀ = k
    · have hd : Props.delete ((k₀, v₀) :: rest) k = Props.delete rest k := by
        simp [Props.delete, hk]
      rw [hd, ih]
    · have hd : Props.delete ((k₀, v₀) :: rest) k = (k₀, v₀) :: Props.delete rest k := by
        simp [Props.delete, hk]
      have hq : (k == k₀) = false := by simpa using fun h => hk h.symm
      rw [hd]
      simp only [Props.get, List.lookup, hq] at ih ⊢
      exact ih

/-- `convertProps` is the two grouping steps applied to `renamedProps`. -/
theorem convertProps_eq (props : Props) :
    convertProps props =
      (match (if (props.get "fluid").truthy && hasArtDirectionFluidArray props then
          (groupByMediaOf ((renamedProps props).get "fluid")).map
            (fun g => Props.set (renamedProps props) "fluid" g)
        else .ok (renamedProps props)) with
      | .error e => .error e
      | .ok converted =>
        if (props.get "fixed").truthy && hasArtDirectionFixedArray props then
          (groupByMediaOf (converted.get "fixed")).map (fun g => Props.set converted "fixed" g)
        else .ok converted) := rfl

theorem renamedProps_get_other (props : Props) (k : String)
    (h1 : k ≠ "fluid") (h2 : k ≠ "fixed") (h3 : k ≠ "resolutions") (h4 : k ≠ "sizes") :
    (renamedProps props).get k = props.get k := by
  unfold renamedProps
  by_cases hr : (props.get "resolutions").truthy = true <;>
    by_cases hs : (props.get "sizes").truthy = true <;>
    simp only [hr, hs, if_true, if_false, Bool.false_eq_true,
      Props.get_delete_ne _ _ _ (Ne.symm h3), Props.get_delete_ne _ _ _ (Ne.symm h4),
      Props.get_set_ne _ _ _ _ (Ne.symm h1), Props.get_set_ne _ _ _ _ (Ne.symm h2)]

theorem renamedProps_resolutions (props : Props)
    (hr : (props.get "resolutions").truthy = true) :
    (renamedProps props).get "resolutions" = .prim .undefined ∧
    (renamedProps props).get "fixed" = props.get "resolutions" := by
  unfold renamedProps
  by_cases hs : (props.get "sizes").truthy = true
  · simp only [hr, hs, if_true]
    constructor
    · rw [Props.get_delete_ne _ _ _ (by decide), Props.get_set_ne _ _ _ _ (by decide),
        Props.get_delete_self]
    · rw [Props.get_delete_ne _ _ _ (by decide), Props.get_set_ne _ _ _ _ (by decide),
        Props.get_delete_ne _ _ _ (by decide), Props.get_set_self]
  · simp only [hr, hs, if_true, if_false, Bool.false_eq_true]
    constructor
    · rw [Props.get_delete_self]
    · rw [Props.get_delete_ne _ _ _ (by decide), Props.get_set_self]

theorem renamedProps_sizes (props : Props)
    (hs : (props.get "sizes").truthy = true) :
    (renamedProps props).get "sizes" = .prim .undefined ∧
    (renamedProps props).get "fluid" = props.get "sizes" := by
  unfold renamedProps
  simp only [hs, if_true]
  constructor
  · rw [Props.get_delete_self]
  · rw [Props.get_delete_ne _ _ _ (by decide), Props.get_set_self]

/-- Whenever `convertProps` returns, every property other than `fluid`,
`fixed`, `resolutions` and `sizes` has its input value, a truthy legacy
value has left its legacy key, and it stands under the current name, as it
was or regrouped by `groupByMedia`. -/
theorem convertProps_renames (props p : Props) (h : convertProps props = .ok p) :
    (∀ k : String, k ≠ "fluid" → k ≠ "fixed" → k ≠ "resolutions" → k ≠ "sizes" →
      p.get k = props.get k) ∧
    ((props.get "resolutions").truthy = true →
      p.get "resolutions" = .prim .undefined ∧
      (p.get "fixed" = props.get "resolutions" ∨
        groupByMediaOf (props.get "resolutions") = .ok (p.get "fixed"))) ∧
    ((props.get "sizes").truthy = true →
      p.get "sizes" = .prim .undefined ∧
      (p.get "fluid" = props.get "sizes" ∨
        groupByMediaOf (props.get "sizes") = .ok (p.get "fluid"))) := by
  rw [convertProps_eq] at h
  -- the value after the `fluid` step
  have step1 : ∃ c : Props, (∃ g₁, (c = renamedProps props ∨
        (groupByMediaOf ((renamedProps props).get "fluid") = .ok g₁ ∧
          c = Props.set (renamedProps props) "fluid" g₁))) ∧
      (if (props.get "fixed").truthy && hasArtDirectionFixedArray props then
          (groupByMediaOf (c.get "fixed")).map (fun g => Props.set c "fixed" g)
        else .ok c) = .ok p := by
    by_cases g1 : ((props.get "fluid").truthy && hasArtDirectionFluidArray props) = true
    · simp only [g1, if_true] at h
      cases e : groupByMediaOf ((renamedProps props).get "fluid") with
      | error err => simp [e, Except.map] at h
      | ok g₁ =>
        simp only [e, Except.map] at h
        exact ⟨_, ⟨g₁, Or.inr ⟨rfl, rfl⟩⟩, h⟩
    · simp only [g1, if_false, Bool.false_eq_true] at h
      exact ⟨_, ⟨.prim .undefined, Or.inl rfl⟩, h⟩
  obtain ⟨c, ⟨g₁, hc⟩, h2⟩ := step1
  -- the value after the `fixed` step
  have step2 : ∃ g₂, p = c ∨ (groupByMediaOf (c.get "fixed") = .ok g₂ ∧ p = Props.set c "fixed" g₂) := by
    by_cases g2 : ((props.get "fixed").truthy && hasArtDirectionFixedArray props) = true
    · simp only [g2, if_true] at h2
      cases e : groupByMediaOf (c.get "fixed") with
      | error err => simp [e, Except.map] at h2
      | ok g₂ =>
        simp only [e, Except.map, Except.ok.injEq] at h2
        exact ⟨g₂, Or.inr ⟨rfl, h2.symm⟩⟩
    · simp only [g2, if_false, Bool.false_eq_true, Except.ok.injEq] at h2
      exact ⟨.prim .undefined, Or.inl h2.symm⟩
  obtain ⟨g₂, hp⟩ := step2
  have cget : ∀ k : String, k ≠ "fluid" → c.get k = (renamedProps props).get k := by
    intro k hk
    rcases hc with rfl | ⟨_, rfl⟩
    · rfl
    · rw [Props.get_set_ne _ _ _ _ (Ne.symm hk)]
  have pget : ∀ k : String, k ≠ "fixed" → p.get k = c.get k := by
    intro k hk
    rcases hp with rfl | ⟨_, rfl⟩
    · rfl
    · rw [Props.get_set_ne _ _ _ _ (Ne.symm hk)]
  refine ⟨?_, ?_, ?_⟩
  · intro k h1 h2 h3 h4
    rw [pget k h2, cget k h1, renamedProps_get_other props k h1 h2 h3 h4]
  · intro hr
    obtain ⟨r1, r2⟩ := renamedProps_resolutions props hr
    refine ⟨by rw [pget _ (by decide), cget _ (by decide), r1], ?_⟩
    have cfixed : c.get "fixed" = props.get "resolutions" := by
      rw [cget _ (by decide), r2]
    rcases hp with rfl | ⟨hg, rfl⟩
    · exact Or.inl cfixed
    · right
      rw [Props.get_set_self, ← cfixed, hg]
  · intro hs
    obtain ⟨s1, s2⟩ := renamedProps_sizes props hs
    have psizes : p.get "sizes" = .prim .undefined := by
      rw [pget _ (by decide), cget _ (by decide), s1]
    refine ⟨psizes, ?_⟩
    rw [pget _ (by decide)]
    rcases hc with rfl | ⟨hg, rfl⟩
    · exact Or.inl s2
    · right
      rw [Props.get_set_self, ← s2, hg]

/-- What `convertProps` computes when neither legacy value is truthy. -/
theorem convertProps_no_legacy (props : Props)
    (hs : (props.get "sizes").truthy = false)
    (hr : (props.get "resolutions").truthy = false) :
    convertProps props =
      (match (if (props.get "fluid").truthy && hasArtDirectionFluidArray props then
          (groupByMediaOf (props.get "fluid")).map (fun g => Props.set props "fluid" g)
        else .ok props) with
      | .error e => .error e
      | .ok converted =>
        if (props.get "fixed").truthy && hasArtDirectionFixedArray props then
          (groupByMediaOf (converted.get "fixed")).map (fun g => Props.set converted "fixed" g)
        else .ok converted) := by
  simp [convertProps, hs, hr]

theorem isDefined_of_truthy (q : JSPrim) (h : q.truthy = true) : q.isDefined = true := by
  cases q <;> simp_all [JSPrim.truthy, JSPrim.isDefined]

/-- The current-name path: without legacy values, a `fluid` array in which
some variant has a media condition is regrouped by `groupByMedia`. -/
theorem convertProps_groups_fluid (props : Props) (xs : List JSObj)
    (hs : (props.get "sizes").truthy = false)
    (hr : (props.get "resolutions").truthy = false)
    (hfl : props.get "fluid" = .arr xs) (hm : xs.any hasMedia = true) :
    ∃ p, convertProps props = .ok p ∧ p.get "fluid" = .arr (groupByMedia xs) := by
  rw [convertProps_no_legacy props hs hr]
  have hart : hasArtDirectionFluidArray props = true := by
    simp only [hasArtDirectionFluidArray, hfl, truthy_arr, Bool.true_and]
    rw [List.any_eq_true] at hm ⊢
    obtain ⟨v, hv, hvm⟩ := hm
    exact ⟨v, hv, isDefined_of_truthy _ hvm⟩
  simp only [hfl, truthy_arr, hart, Bool.and_self, if_true, groupByMediaOf, Except.map]
  by_cases hfx : ((props.get "fixed").truthy && hasArtDirectionFixedArray props) = true
  · have hart' : hasArtDirectionFixedArray props = true := by simp_all
    obtain ⟨ys, hys⟩ := hasArtDirectionFixedArray_arr props hart'
    refine ⟨Props.set (Props.set props "fluid" (.arr (groupByMedia xs))) "fixed"
      (.arr (groupByMedia ys)), ?_, ?_⟩
    · simp [hart', Props.get_set_ne _ _ _ _ (show "fluid" ≠ "fixed" by decide), hys,
        groupByMediaOf, Except.map]
    · rw [Props.get_set_ne _ _ _ _ (by decide), Props.get_set_self]
  · refine ⟨Props.set props "fluid" (.arr (groupByMedia xs)), ?_, Props.get_set_self _ _ _⟩
    simp [hfx]

/-- What the code does with a single descriptor in general: when no legacy
value is supplied, a single descriptor under `fluid` (resp. `fixed`) is still
that single descriptor after `convertProps`, which returns; it is not wrapped
into an array. -/
theorem convertProps_keeps_single_descriptor (props : Props) (d : JSObj)
    (hs : (props.get "sizes").truthy = false)
    (hr : (props.get "resolutions").truthy = false) :
    (props.get "fluid" = .obj d →
      ∃ p, convertProps props = .ok p ∧ p.get "fluid" = .obj d) ∧
    (props.get "fixed" = .obj d →
      ∃ p, convertProps props = .ok p ∧ p.get "fixed" = .obj d) := by
  rw [convertProps_no_legacy props hs hr]
  constructor
  · intro hfl
    have hno : hasArtDirectionFluidArray props = false := by
      simp [hasArtDirectionFluidArray, hfl]
    simp only [hno, Bool.and_false, Bool.false_eq_true, if_false]
    by_cases hfx : ((props.get "fixed").truthy && hasArtDirectionFixedArray props) = true
    · have hart : hasArtDirectionFixedArray props = true := by simp_all
      obtain ⟨xs, hxs⟩ := hasArtDirectionFixedArray_arr props hart
      refine ⟨Props.set props "fixed" (.arr (groupByMedia xs)), ?_, ?_⟩
      · simp [hart, hxs, groupByMediaOf, Except.map]
      · rw [Props.get_set_ne _ _ _ _ (by decide), hfl]
    · refine ⟨props, ?_, hfl⟩
      simp [hfx]
  · intro hfx
    have hno : hasArtDirectionFixedArray props = false := by
      simp [hasArtDirectionFixedArray, hfx]
    simp only [hno, Bool.and_false, Bool.false_eq_true, if_false]
    by_cases hfl : ((props.get "fluid").truthy && hasArtDirectionFluidArray props) = true
    · have hart : hasArtDirectionFluidArray props = true := by simp_all
      obtain ⟨xs, hxs⟩ := hasArtDirectionFluidArray_arr props hart
      refine ⟨Props.set props "fluid" (.arr (groupByMedia xs)), ?_, ?_⟩
      · simp [hart, hxs, groupByMediaOf, Except.map]
      · rw [Props.get_set_ne _ _ _ _ (by decide), hfx]
    · refine ⟨props, ?_, hfx⟩
      simp [hfl]

/-- An instance of the above: a `fluid` descriptor next to an art-directed
`fixed` array. -/
theorem convertProps_keeps_single_descriptor_witness :
    ∃ p, convertProps [("fluid", .obj plainVariant), ("fixed", .arr [plainVariant, smallVariant])]
        = .ok p ∧ p.get "fluid" = .obj plainVariant :=
  (convertProps_keeps_single_descriptor
    [("fluid", .obj plainVariant), ("fixed", .arr [plainVariant, smallVariant])] plainVariant
    rfl rfl).1 rfl

theorem toInt32_modEq (x : Int) : toInt32 x ≡ x [ZMOD 4294967296] := by
  unfold toInt32
  have h : (x + 2147483648) % 4294967296 ≡ x + 2147483648 [ZMOD 4294967296] := Int.mod_modEq _ _
  simpa using h.sub_right 2147483648

theorem toInt32_congr {x y : Int} (h : x ≡ y [ZMOD 4294967296]) : toInt32 x = toInt32 y := by
  unfold toInt32
  have h' : (x + 2147483648) % 4294967296 = (y + 2147483648) % 4294967296 := h.add_right _
  rw [h']

theorem toInt32_range (x : Int) : -2147483648 ≤ toInt32 x ∧ toInt32 x ≤ 2147483647 := by
  unfold toInt32
  have h1 := Int.emod_nonneg (x + 2147483648) (by norm_num : (4294967296 : Int) ≠ 0)
  have h2 := Int.emod_lt_of_pos (x + 2147483648) (by norm_num : (0 : Int) < 4294967296)
  constructor <;> omega

theorem hash_step_congr (h s : Int) (c : Nat) (hs : h ≡ s [ZMOD 4294967296]) :
    toInt32 (shl32 h 5 - h + (c : Int)) = toInt32 (31 * s + c) := by
  apply toInt32_congr
  unfold shl32
  have h1 : toInt32 (toInt32 h * 2 ^ 5) ≡ s * 2 ^ 5 [ZMOD 4294967296] :=
    (toInt32_modEq _).trans (((toInt32_modEq h).trans hs).mul_right _)
  have h2 := (h1.sub hs).add_right (c : Int)
  have e : s * 2 ^ 5 - s + (c : Int) = 31 * s + c := by ring
  rwa [e] at h2

theorem javaSum_append (l : List Nat) (c : Nat) :
    javaSum (l ++ [c]) = 31 * javaSum l + c := by
  unfold javaSum
  simp only [List.length_append, List.length_singleton, List.range_succ, List.map_append,
    List.sum_append, List.map_cons, List.map_nil, List.sum_cons, List.sum_nil]
  congr 1
  · rw [← List.sum_map_mul_left]
    congr 1
    apply List.map_congr_left
    intro i hi
    have hi' : i < l.length := List.mem_range.mp hi
    have e : l.length + 1 - 1 - i = (l.length - 1 - i) + 1 := by omega
    have g : (l ++ [c]).getD i 0 = l.getD i 0 := by
      simp [List.getD_eq_getElem?_getD, List.getElem?_append_left hi']
    rw [e, pow_succ, g]
    ring
  · simp [List.getD_append_right]

theorem hashUnits_eq (units : List Nat) : hashUnits units = toInt32 (javaSum units) := by
  induction units using List.reverseRecOn with
  | nil => rfl
  | append_singleton l c ih =>
    rw [javaSum_append]
    unfold hashUnits at ih ⊢
    rw [List.foldl_append, List.foldl_cons, List.foldl_nil, ih]
    exact hash_step_congr _ _ _ (toInt32_modEq _)

/-- C8: on every string `hashString` is Java's `String.hashCode()`: over the
UTF-16 code units `c_0 .. c_(n-1)` it is the sum of `c_i * 31^(n-1-i)`
reduced modulo 2^32 into `[-2^31, 2^31 - 1]`; the empty string hashes to 0. -/
theorem hashString_eq_javaHashCode :
    (∀ units : List Nat, hashUnits units = javaHashCode units) ∧
    (∀ s : String, hashString (.prim (.str s)) = .num (javaHashCode (utf16Units s))) ∧
    (∀ units : List Nat, javaHashCode units ≡ javaSum units [ZMOD 2 ^ 32] ∧
      -2 ^ 31 ≤ javaHashCode units ∧ javaHashCode units ≤ 2 ^ 31 - 1) ∧
    hashString (.prim (.str "")) = .num 0 := by
  refine ⟨hashUnits_eq, ?_, ?_, rfl⟩
  · intro s
    simp [hashString, hashUnits_eq, javaHashCode]
  · intro units
    have hr := toInt32_range (javaSum units)
    refine ⟨?_, ?_, ?_⟩
    · simpa [javaHashCode] using toInt32_modEq (javaSum units)
    · simpa [javaHashCode] using hr.1
    · have : (2 : Int) ^ 31 - 1 = 2147483647 := by norm_num
      rw [this]
      exact hr.2

theorem truthy_not_undefined (p : JSPrim) (h : p.truthy = true) :
    p ≠ .undefined ∧ p ≠ .str "" ∧ p ≠ .null := by
  refine ⟨?_, ?_, ?_⟩ <;> rintro rfl <;> simp [JSPrim.truthy] at h

theorem getNamed_prim_truthy (p : JSPrim) (k : String) (h : p.truthy = true) :
    (JSVal.prim p).getNamed k = .ok .undefined := by
  cases p <;> simp_all [JSVal.getNamed, JSPrim.truthy]

/-- What `getImageSrcKey` returns once `getCurrentSrcData` has returned `r`. -/
theorem getImageSrcKey_of_ok (env : Env) (fluid fixed : JSVal) (r : SrcData)
    (h : getCurrentSrcData env fluid fixed = .ok r) :
    getImageSrcKey env fluid fixed =
      .ok (match r.value with
        | .obj o => if (o.get "src").truthy then o.get "src" else .null
        | _ => .null) := by
  unfold getImageSrcKey
  rw [h]
  obtain ⟨value, cd⟩ := r
  cases value with
  | obj o => simp [JSVal.getNamed]
  | arr xs => simp [JSVal.getNamed, JSPrim.truthy]
  | prim q =>
    by_cases hq : q.truthy = true
    · simp [JSVal.truthy, hq, getNamed_prim_truthy q "src" hq, JSPrim.truthy]
    · simp [JSVal.truthy, hq]

theorem index_arr_ok (l : List JSObj) (i : Nat) : ∃ v, (JSVal.arr l).index i = .ok v := by
  cases h : l[i]? with
  | none => exact ⟨.prim .undefined, by simp [JSVal.index, h]⟩
  | some o => exact ⟨.obj o, by simp [JSVal.index, h]⟩

/-- `getCurrentSrcData` returns unless a truthy non-array `fluid` stands beside
an array `fixed`. -/
theorem getCurrentSrcData_returns (env : Env) (fluid fixed : JSVal)
    (h : fluid.truthy = true → fluid.isArray = false → fixed.isArray = false) :
    ∃ r, getCurrentSrcData env fluid fixed = .ok r := by
  unfold getCurrentSrcData
  rw [hasImageArray_pair]
  by_cases hia : ((fluid.truthy && fluid.isArray) || (fixed.truthy && fixed.isArray)) = true
  · have harr : ∃ xs, (if fluid.truthy = true then fluid else fixed) = .arr xs := by
      by_cases hf : fluid.truthy = true
      · cases fluid with
        | arr xs => exact ⟨xs, by simp⟩
        | obj o => simp [h rfl rfl] at hia
        | prim q => simp [h hf rfl] at hia
      · cases fixed with
        | arr ys => exact ⟨ys, by simp [hf]⟩
        | obj o => simp [hf] at hia
        | prim q => simp [hf] at hia
    obtain ⟨xs, hxs⟩ := harr
    simp only [hia, if_true, hxs]
    split
    · split
      · obtain ⟨v, hv⟩ := index_arr_ok xs.reverse.reverse ‹Nat›
        exact ⟨_, by rw [hv]; rfl⟩
      · obtain ⟨v, hv⟩ := index_arr_ok xs.reverse 0
        exact ⟨_, by rw [hv]; rfl⟩
    · obtain ⟨v, hv⟩ := index_arr_ok xs 0
      exact ⟨_, by rw [hv]; rfl⟩
  · simp only [hia]
    exact ⟨_, rfl⟩

/-- Where `getImageSrcKey` keeps its contract: it returns whenever
`getCurrentSrcData` does, which is on every input but a truthy non-array
`fluid` beside an array `fixed`; with `src` a string or missing, it returns
the `src` of the selected variant when that is a non-empty string and
`null` otherwise, in particular without image data and for an empty array;
it never returns `undefined` or the empty string. -/
theorem getImageSrcKey_spec (env : Env) :
    (∀ (fluid fixed : JSVal) (r : SrcData), getCurrentSrcData env fluid fixed = .ok r →
      (∀ o, r.value = .obj o → o.get "src" = .undefined ∨ ∃ s, o.get "src" = .str s) →
      getImageSrcKey env fluid fixed = .ok (expectedSrcKey r.value)) ∧
    (∀ fluid fixed : JSVal,
      (fluid.truthy = true → fluid.isArray = false → fixed.isArray = false) →
      ∃ key, getImageSrcKey env fluid fixed = .ok key) ∧
    (∀ (fluid fixed : JSVal) (e : JSError), getCurrentSrcData env fluid fixed = .error e →
      getImageSrcKey env fluid fixed = .error e) ∧
    (∀ fluid fixed : JSVal, getImageSrcKey env fluid fixed ≠ .ok .undefined ∧
      getImageSrcKey env fluid fixed ≠ .ok (.str "")) ∧
    (∀ fluid fixed : JSVal, fluid.truthy = false → fixed.truthy = false →
      getImageSrcKey env fluid fixed = .ok .null) ∧
    (∀ fixed : JSVal, getImageSrcKey env (.arr []) fixed = .ok .null) := by
  refine ⟨?_, ?_, ?_, ?_, ?_, ?_⟩
  · intro fluid fixed r h hsrc
    rw [getImageSrcKey_of_ok env fluid fixed r h]
    obtain ⟨value, cd⟩ := r
    cases value with
    | obj o =>
      rcases hsrc o rfl with hu | ⟨s, hs⟩
      · simp [expectedSrcKey, hu, JSPrim.truthy]
      · by_cases he : s = ""
        · simp [expectedSrcKey, hs, JSPrim.truthy, he]
        · simp [expectedSrcKey, hs, JSPrim.truthy, he]
    | arr xs => simp [expectedSrcKey]
    | prim q => simp [expectedSrcKey]
  · intro fluid fixed h
    obtain ⟨r, hr⟩ := getCurrentSrcData_returns env fluid fixed h
    exact ⟨_, getImageSrcKey_of_ok env fluid fixed r hr⟩
  · intro fluid fixed e h
    simp [getImageSrcKey, h]
  · intro fluid fixed
    cases h : getCurrentSrcData env fluid fixed with
    | error e => simp [getImageSrcKey, h]
    | ok r =>
      rw [getImageSrcKey_of_ok env fluid fixed r h]
      obtain ⟨value, cd⟩ := r
      cases value with
      | obj o =>
        by_cases ht : (o.get "src").truthy = true
        · have := truthy_not_undefined _ ht
          simp [ht, this.1, this.2.1]
        · simp [ht]
      | arr xs => simp
      | prim q => simp
  · intro fluid fixed hf hx
    have h : getCurrentSrcData env fluid fixed = .ok ⟨fixed, fixed⟩ := by
      simp [getCurrentSrcData, hasImageArray_pair, hf, hx]
    simp [getImageSrcKey, h, hx]
  · intro fixed
    have h : ∃ cd, getCurrentSrcData env (.arr []) fixed = .ok ⟨.prim .undefined, cd⟩ := by
      by_cases hb : (env.isBrowser && hasArtDirectionArray
          [("fluid", JSVal.arr []), ("fixed", fixed)]) = true
      · exact ⟨.arr [], by simp [getCurrentSrcData, hasImageArray_pair, hb, JSVal.index, Except.map]⟩
      · exact ⟨.arr [], by simp [getCurrentSrcData, hasImageArray_pair, hb, JSVal.index, Except.map]⟩
    obtain ⟨cd, h⟩ := h
    simp [getImageSrcKey, h, JSVal.truthy, JSPrim.truthy]

/-- An instance of the above: a browser that matches nothing, and a single
descriptor. -/
theorem getImageSrcKey_spec_witness :
    getImageSrcKey (browserMatching "print") (.obj plainVariant) (.prim .undefined) =
      .ok (.str "default.jpg") :=
  (getImageSrcKey_spec (browserMatching "print")).1 (.obj plainVariant) (.prim .undefined)
    ⟨.obj plainVariant, .obj plainVariant⟩ rfl
    (by intro o ho; cases ho; exact Or.inr ⟨"default.jpg", rfl⟩)

/-- C9: in a browser, a single `fluid` descriptor beside an art-directed
`fixed` array makes `getImageSrcKey` raise a TypeError, whether or not a
media query matches, where its documentation promises a string or `null`
and the claim the descriptor's `src` or `null`: `hasImageArray` is
satisfied by `fixed`, `currentData` is the `fluid` object, and
`currentData.reverse` does not exist.  The same descriptor on its own
gives its `src`. -/
theorem getImageSrcKey_throws_on_mixed :
    getImageSrcKey (browserMatching "print") (.obj plainVariant) (.arr [smallVariant]) =
      .error .typeError ∧
    getImageSrcKey (browserMatching "(max-width: 600px)") (.obj plainVariant)
        (.arr [smallVariant]) = .error .typeError ∧
    getCurrentSrcData (browserMatching "print") (.obj plainVariant) (.arr [smallVariant]) =
      .error .typeError ∧
    getImageSrcKey (browserMatching "print") (.obj plainVariant) (.prim .undefined) =
      .ok (.str "default.jpg") :=
  ⟨rfl, rfl, rfl, rfl⟩

/-- Outside the documented type of a descriptor, `{src: string}`: a truthy
`src` that is not a string is handed back as it is by `data.src || null`,
here the number 5. -/
theorem getImageSrcKey_nonstring_src (env : Env) :
    getImageSrcKey env (.obj [("src", .num 5)]) (.prim .undefined) = .ok (.num 5) := by
  cases env
  rfl

theorem infix_of_infix_append_delim {n a b : List Char} {d : Char} (hd : d ∉ n)
    (h : n <:+: a ++ d :: b) : n <:+: a ∨ n <:+: b := by
  obtain ⟨s, t, hst⟩ := h
  rw [List.append_assoc] at hst
  rcases List.append_eq_append_iff.mp hst with ⟨a', ha, hn⟩ | ⟨c', hs, hb⟩
  · rcases List.append_eq_append_iff.mp hn with ⟨x, hx, _⟩ | ⟨y, hy, hy'⟩
    · left
      exact ⟨s, x, by rw [ha, hx, List.append_assoc]⟩
    · cases y with
      | nil =>
        left
        refine ⟨s, [], ?_⟩
        rw [ha, hy]
        simp
      | cons y₀ ys =>
        exfalso
        simp only [List.cons_append, List.cons.injEq] at hy'
        apply hd
        rw [hy, hy'.1]
        simp
  · cases c' with
    | nil =>
      cases n with
      | nil => exact Or.inl ⟨[], a, by simp⟩
      | cons n₀ ns =>
        exfalso
        simp only [List.nil_append, List.cons_append, List.cons.injEq] at hb
        apply hd
        rw [hb.1]
        simp
    | cons c₀ cs =>
      right
      simp only [List.cons_append, List.cons.injEq] at hb
      exact ⟨cs, t, by rw [hb.2, List.append_assoc]⟩

theorem notInfix_lit_append {n l r : List Char} (hne : l ≠ []) (hd : l.getLast hne ∉ n)
    (hl : ¬ n <:+: l.dropLast) (hr : ¬ n <:+: r) : ¬ n <:+: l ++ r := by
  intro h
  rw [← List.dropLast_append_getLast hne, List.append_assoc] at h
  rcases infix_of_infix_append_delim hd h with h' | h'
  · exact hl h'
  · exact hr h'

theorem notInfix_append_lit {n a l r : List Char} (hne : l ≠ []) (hd : l.head hne ∉ n)
    (ha : ¬ n <:+: a) (hr : ¬ n <:+: l.tail ++ r) : ¬ n <:+: a ++ (l ++ r) := by
  intro h
  rw [← List.head_cons_tail l hne, List.cons_append] at h
  rcases infix_of_infix_append_delim hd h with h' | h'
  · exact ha h'
  · exact hr h'

theorem notInfix_append_lit_end {n a l : List Char} (hne : l ≠ []) (hd : l.head hne ∉ n)
    (ha : ¬ n <:+: a) (hr : ¬ n <:+: l.tail) : ¬ n <:+: a ++ l := by
  have h := notInfix_append_lit (r := []) hne hd ha (by simpa using hr)
  simpa using h

theorem urlDeclaration_free (x : String) (hx : ¬ occursIn "opacity" x) :
    ¬ occursIn "opacity" ("background-image: url(" ++ x ++ ");") := by
  unfold occursIn at hx ⊢
  simp only [String.data_append, List.append_assoc]
  refine notInfix_lit_append (by decide) (by decide) (by decide) ?_
  exact notInfix_append_lit_end (by decide) (by decide) hx (by decide)

theorem bgColorDeclaration_free (bgColor : JSPrim) (hx : ¬ occursIn "opacity" bgColor.toStr) :
    ¬ occursIn "opacity" (bgColorDeclaration bgColor) := by
  unfold bgColorDeclaration
  split
  · unfold occursIn at hx ⊢
    simp only [String.data_append, List.append_assoc]
    refine notInfix_lit_append (by decide) (by decide) (by decide) ?_
    exact notInfix_append_lit_end (by decide) (by decide) hx (by decide)
  · exact hx

theorem empty_free : ¬ occursIn "opacity" "" := by decide

/-- The `:after` rule holds the word `opacity` only if an interpolated value does. -/
theorem pseudoAfterBlock_free (a : PseudoStyleArgs)
    (hc : ¬ occursIn "opacity" a.classId.toStr)
    (hl : ¬ occursIn "opacity" a.lastImage.toStr)
    (hb : ¬ occursIn "opacity" a.bgImage.toStr)
    (hn : ¬ occursIn "opacity" a.nextImage.toStr)
    (hg : ¬ occursIn "opacity" a.bgColor.toStr) :
    ¬ occursIn "opacity" (pseudoAfterBlock a) := by
  have h1 : ¬ occursIn "opacity"
      (if a.afterOpacity.truthy && a.lastImage != .str "" then
        "background-image: url(" ++ a.lastImage.toStr ++ ");" else "") := by
    split
    · exact urlDeclaration_free _ hl
    · exact empty_free
  have h2 : ¬ occursIn "opacity"
      (if !a.afterOpacity.truthy && (a.bgImage.truthy || a.nextImage.truthy) then
        "background-image: url(" ++
          (if a.bgImage.truthy then a.bgImage else a.nextImage).toStr ++ ");" else "") := by
    split
    · apply urlDeclaration_free
      split
      · exact hb
      · exact hn
    · exact empty_free
  have h3 := bgColorDeclaration_free a.bgColor hg
  unfold occursIn at hc h1 h2 h3 ⊢
  have e : ("\n" : String).data.tail = [] := rfl
  simp only [pseudoAfterBlock, String.data_append, List.append_assoc]
  refine notInfix_lit_append (by decide) (by decide) (by decide) ?_
  refine notInfix_append_lit (by decide) (by decide) hc ?_
  refine notInfix_lit_append (by decide) (by decide) (by decide) ?_
  refine notInfix_lit_append (by decide) (by decide) (by decide) ?_
  refine notInfix_lit_append (by decide) (by decide) (by decide) ?_
  refine notInfix_append_lit (by decide) (by decide) h1 ?_
  rw [e, List.nil_append]
  refine notInfix_lit_append (by decide) (by decide) (by decide) ?_
  refine notInfix_append_lit (by decide) (by decide) h2 ?_
  rw [e, List.nil_append]
  refine notInfix_lit_append (by decide) (by decide) (by decide) ?_
  exact notInfix_append_lit (by decide) (by decide) h3 (by decide)

set_option maxRecDepth 100000 in
/-- C10, as stated, fails: with `afterOpacity` 1 the `:before` rule declares
`opacity: 1;` while the `:after` rule does not hold the word `opacity` at
all, so the two rules do not both carry an opacity declaration. -/
theorem createPseudoStyles_after_without_opacity :
    occursIn "opacity: 1;" (pseudoBeforeBlock loadedArgs) ∧
    ¬ occursIn "opacity" (pseudoAfterBlock loadedArgs) ∧
    ¬ (occursIn "opacity:" (pseudoBeforeBlock loadedArgs) ∧
        occursIn "opacity:" (pseudoAfterBlock loadedArgs)) := by
  refine ⟨by decide, by decide, ?_⟩
  rintro ⟨_, h⟩
  exact absurd h (by decide)

set_option maxRecDepth 100000 in
/-- C10, amended: for every class id the stylesheet holds both selectors
`.gatsby-background-image-X:before` and `.gatsby-background-image-X:after`;
the `:before` rule declares `opacity: afterOpacity;`; the `:after` rule
carries no opacity declaration: unless an interpolated value itself holds
the word, `opacity` does not occur in it. -/
theorem createPseudoStyles_selectors_and_opacity (a : PseudoStyleArgs) :
    occursIn (".gatsby-background-image-" ++ a.classId.toStr ++ ":before") (createPseudoStyles a) ∧
    occursIn (".gatsby-background-image-" ++ a.classId.toStr ++ ":after") (createPseudoStyles a) ∧
    occursIn ("opacity: " ++ a.afterOpacity.toStr ++ ";") (pseudoBeforeBlock a) ∧
    (¬ occursIn "opacity" a.classId.toStr → ¬ occursIn "opacity" a.lastImage.toStr →
      ¬ occursIn "opacity" a.bgImage.toStr → ¬ occursIn "opacity" a.nextImage.toStr →
      ¬ occursIn "opacity" a.bgColor.toStr → ¬ occursIn "opacity" (pseudoAfterBlock a)) := by
  refine ⟨?_, ?_, ?_, pseudoAfterBlock_free a⟩
  · refine ⟨"\n          ".data, (",\n" ++
      "          .gatsby-background-image-" ++ a.classId.toStr ++ ":after \x7b\n" ++
      "            content: '';\n" ++
      "            display: block;\n" ++
      "            position: absolute;\n" ++
      "            width: 100%;\n" ++
      "            height: 100%;\n" ++
      "            top: 0;\n" ++
      "            left: 0;\n" ++
      "            " ++ vendorPrefixBackgroundStyles a.transitionDelay a.fadeIn ++ "\n" ++
      "            " ++ kebabifyBackgroundStyles a.backgroundStyles ++ "\n" ++
      "          \x7d\n" ++ pseudoBeforeBlock a ++ pseudoAfterBlock a ++ "        ").data, ?_⟩
    simp [createPseudoStyles, pseudoSharedBlock, String.data_append]
  · refine ⟨("\n          .gatsby-background-image-" ++ a.classId.toStr ++
      ":before,\n          ").data, (" \x7b\n" ++
      "            content: '';\n" ++
      "            display: block;\n" ++
      "            position: absolute;\n" ++
      "            width: 100%;\n" ++
      "            height: 100%;\n" ++
      "            top: 0;\n" ++
      "            left: 0;\n" ++
      "            " ++ vendorPrefixBackgroundStyles a.transitionDelay a.fadeIn ++ "\n" ++
      "            " ++ kebabifyBackgroundStyles a.backgroundStyles ++ "\n" ++
      "          \x7d\n" ++ pseudoBeforeBlock a ++ pseudoAfterBlock a ++ "        ").data, ?_⟩
    simp [createPseudoStyles, pseudoSharedBlock, String.data_append]
  · refine ⟨("          .gatsby-background-image-" ++ a.classId.toStr ++ ":before \x7b\n" ++
      "            z-index: -100;\n" ++
      "            " ++
        (if !a.afterOpacity.truthy && a.lastImage != .str "" then
          "background-image: url(" ++ a.lastImage.toStr ++ ");" else "") ++ "\n" ++
      "            " ++
        (if a.afterOpacity.truthy && (a.nextImage.truthy || a.bgImage.truthy) then
          "background-image: url(" ++
            (if a.nextImage.truthy then a.nextImage else a.bgImage).toStr ++ ");" else "") ++ "\n" ++
      "            " ++ bgColorDeclaration a.bgColor ++ "\n" ++
      "            ").data, " \n          \x7d\n".data, ?_⟩
    simp [pseudoBeforeBlock, String.data_append]

/-- Witness for C10: the arguments of a loaded image. -/
theorem createPseudoStyles_selectors_and_opacity_witness :
    ¬ occursIn "opacity" (pseudoAfterBlock loadedArgs) :=
  (createPseudoStyles_selectors_and_opacity loadedArgs).2.2.2
    (by decide) (by decide) (by decide) (by decide) (by decide)

theorem jsJoin_fold_go (separator : String) (items : List String) (acc : String) :
    (items.map JSPrim.str).foldl
      (fun (acc : String × Bool) (item : JSPrim) =>
        let element := match item with
          | .undefined => ""
          | .null => ""
          | p => p.toStr
        (if acc.2 then acc.1 ++ element else acc.1 ++ separator ++ element, false))
      (acc, false) = (String.intercalate.go acc separator items, false) := by
  induction items generalizing acc with
  | nil => simp [String.intercalate.go]
  | cons x xs ih =>
    simp only [List.map_cons, List.foldl_cons, String.intercalate.go]
    exact ih (acc ++ separator ++ x)

theorem jsJoin_strings (separator : String) (items : List String) :
    jsJoin separator (items.map JSPrim.str) = String.intercalate separator items := by
  cases items with
  | nil => rfl
  | cons x xs =>
    unfold jsJoin
    simp only [List.map_cons, List.foldl_cons, String.intercalate]
    have h := jsJoin_fold_go separator xs ("" ++ x)
    simp only [JSPrim.toStr, if_true] at h ⊢
    rw [h]
    simp

theorem filter_nonempty_strings (items : List String) :
    (items.map JSPrim.str).filter (fun item => item != .str "") =
      (items.filter (fun s => s ≠ "")).map JSPrim.str := by
  induction items with
  | nil => rfl
  | cons x xs ih =>
    by_cases hx : x = ""
    · simp [List.filter_cons, hx, ih]
    · simp [List.filter_cons, hx, ih]

/-- C16: on an array of strings `filteredJoin` is the items other than the
empty string, in their original order, joined by a single comma; an array
whose items are all the empty string, the empty array included, gives the
empty string. -/
theorem filteredJoin_spec :
    (∀ items : List String,
      filteredJoin (items.map JSPrim.str) =
        String.intercalate "," (items.filter (fun s => s ≠ ""))) ∧
    (∀ n : Nat, filteredJoin (List.replicate n (JSPrim.str "")) = "") ∧
    filteredJoin [.str "a.jpg", .str "", .str "b.jpg", .str ""] = "a.jpg,b.jpg" := by
  refine ⟨?_, ?_, by decide⟩
  · intro items
    unfold filteredJoin
    rw [filter_nonempty_strings, jsJoin_strings]
  · intro n
    have h : (List.replicate n (JSPrim.str "")).filter (fun item => item != .str "") = [] := by
      rw [List.filter_eq_nil_iff]
      intro a ha
      rw [List.eq_of_mem_replicate ha]
      simp
    unfold filteredJoin
    rw [h]
    rfl

theorem isUpper_iff (c : Char) : c.isUpper = true ↔ 65 ≤ c.toNat ∧ c.toNat ≤ 90 := by
  simp only [Char.isUpper, Bool.and_eq_true, decide_eq_true_eq, ge_iff_le]
  have h1 : (65 : UInt32) ≤ c.val ↔ 65 ≤ c.toNat := by
    rw [UInt32.le_def]; rfl
  have h2 : c.val ≤ (90 : UInt32) ↔ c.toNat ≤ 90 := by
    rw [UInt32.le_def]; rfl
  rw [h1, h2]

theorem isLower_iff (c : Char) : c.isLower = true ↔ 97 ≤ c.toNat ∧ c.toNat ≤ 122 := by
  simp only [Char.isLower, Bool.and_eq_true, decide_eq_true_eq, ge_iff_le]
  have h1 : (97 : UInt32) ≤ c.val ↔ 97 ≤ c.toNat := by
    rw [UInt32.le_def]; rfl
  have h2 : c.val ≤ (122 : UInt32) ↔ c.toNat ≤ 122 := by
    rw [UInt32.le_def]; rfl
  rw [h1, h2]

theorem isDigit_iff (c : Char) : c.isDigit = true ↔ 48 ≤ c.toNat ∧ c.toNat ≤ 57 := by
  simp only [Char.isDigit, Bool.and_eq_true, decide_eq_true_eq, ge_iff_le]
  have h1 : (48 : UInt32) ≤ c.val ↔ 48 ≤ c.toNat := by
    rw [UInt32.le_def]; rfl
  have h2 : c.val ≤ (57 : UInt32) ↔ c.toNat ≤ 57 := by
    rw [UInt32.le_def]; rfl
  rw [h1, h2]

theorem mem_asciiUpper_iff (c : Char) : c ∈ asciiUpper ↔ c.isUpper = true := by
  constructor
  · intro h
    have hall : ∀ x ∈ asciiUpper, x.isUpper = true := by decide
    exact hall c h
  · intro h
    obtain ⟨h1, h2⟩ := (isUpper_iff c).mp h
    rw [← Char.ofNat_toNat c]
    generalize c.toNat = n at h1 h2
    interval_cases n <;> decide

theorem mem_asciiLower_iff (c : Char) : c ∈ asciiLower ↔ c.isLower = true := by
  constructor
  · intro h
    have hall : ∀ x ∈ asciiLower, x.isLower = true := by decide
    exact hall c h
  · intro h
    obtain ⟨h1, h2⟩ := (isLower_iff c).mp h
    rw [← Char.ofNat_toNat c]
    generalize c.toNat = n at h1 h2
    interval_cases n <;> decide

theorem mem_asciiDigits_iff (c : Char) : c ∈ asciiDigits ↔ c.isDigit = true := by
  constructor
  · intro h
    have hall : ∀ x ∈ asciiDigits, x.isDigit = true := by decide
    exact hall c h
  · intro h
    obtain ⟨h1, h2⟩ := (isDigit_iff c).mp h
    rw [← Char.ofNat_toNat c]
    generalize c.toNat = n at h1 h2
    interval_cases n <;> decide

theorem isWordChar_iff (c : Char) :
    isWordChar c = true ↔ c ∈ asciiUpper ∨ c ∈ asciiLower ∨ c ∈ asciiDigits ∨ c = '_' := by
  rw [mem_asciiUpper_iff, mem_asciiLower_iff, mem_asciiDigits_iff]
  simp [isWordChar, Char.isAlphanum, Char.isAlpha, or_assoc]

theorem kebabString_eq (s : String) : kebabString s = String.mk (kebabCaseOf s.data) := by
  unfold kebabString kebabCaseOf
  congr 1
  have hf : (fun c => isWordChar c) =
      (fun c => decide (c ∈ asciiUpper ∨ c ∈ asciiLower ∨ c ∈ asciiDigits ∨ c = '_')) := by
    funext c
    rw [Bool.eq_iff_iff, isWordChar_iff]
    simp
  have hg : (fun c : Char => if c.isUpper = true then ['-', c.toLower] else [c]) =
      (fun c => if c ∈ asciiUpper then ['-', c.toLower] else [c]) := by
    funext c
    simp only [mem_asciiUpper_iff]
  rw [show List.filter isWordChar s.data = List.filter (fun c => isWordChar c) s.data from rfl,
    hf, hg]

/-- What every character of a kebab-cased string satisfies. -/
theorem kebabString_chars (s : String) (c : Char) (hc : c ∈ (kebabString s).data) :
    (c = '-' ∨ c ∈ asciiLower ∨ c ∈ asciiDigits ∨ c = '_') ∧
    c ∉ asciiUpper ∧ c.isWhitespace = false ∧ isJsWhiteSpace c = false := by
  unfold kebabString at hc
  simp only [List.mem_flatMap, List.mem_filter] at hc
  obtain ⟨x, ⟨_, hx⟩, hcx⟩ := hc
  by_cases hu : x.isUpper = true
  · have hall : ∀ y ∈ asciiUpper, ∀ z ∈ ['-', y.toLower],
        (z = '-' ∨ z ∈ asciiLower ∨ z ∈ asciiDigits ∨ z = '_') ∧
        z ∉ asciiUpper ∧ z.isWhitespace = false ∧ isJsWhiteSpace z = false := by decide
    rw [if_pos hu] at hcx
    exact hall x ((mem_asciiUpper_iff x).mpr hu) c hcx
  · rw [if_neg hu] at hcx
    have hcx' : c = x := by simpa using hcx
    subst hcx'
    have hnu : c ∉ asciiUpper := fun h => hu ((mem_asciiUpper_iff c).mp h)
    rcases (isWordChar_iff c).mp hx with h | h | h | h
    · exact absurd h hnu
    · have hall : ∀ y ∈ asciiLower, y.isWhitespace = false ∧ isJsWhiteSpace y = false := by
        decide
      exact ⟨Or.inr (Or.inl h), hnu, hall c h⟩
    · have hall : ∀ y ∈ asciiDigits, y.isWhitespace = false ∧ isJsWhiteSpace y = false := by
        decide
      exact ⟨Or.inr (Or.inr (Or.inl h)), hnu, hall c h⟩
    · subst h
      exact ⟨Or.inr (Or.inr (Or.inr rfl)), by decide, by decide, by decide⟩

/-- C13: on every string `toKebabCase` is the string with every character
other than an ASCII letter, digit or underscore removed and then every
upper-case ASCII letter replaced by a hyphen and its lower-case form; the
result holds only hyphens, lower-case ASCII letters, digits and
underscores, so no upper-case ASCII letter and no white space;
`backgroundColor` gives `background-color`. -/
theorem toKebabCase_spec :
    (∀ s : String, toKebabCase (.prim (.str s)) = .str (String.mk (kebabCaseOf s.data))) ∧
    (∀ (s r : String), toKebabCase (.prim (.str s)) = .str r → ∀ c ∈ r.data,
      (c = '-' ∨ c ∈ asciiLower ∨ c ∈ asciiDigits ∨ c = '_') ∧
      c ∉ asciiUpper ∧ c.isWhitespace = false ∧ isJsWhiteSpace c = false) ∧
    toKebabCase (.prim (.str "backgroundColor")) = .str "background-color" := by
  refine ⟨?_, ?_, by decide⟩
  · intro s
    simp [toKebabCase, kebabString_eq]
  · intro s r h c hc
    simp only [toKebabCase, JSPrim.str.injEq] at h
    subst h
    exact kebabString_chars s c hc

/-- Witness for C13: a camel-cased rule with white space around it. -/
theorem toKebabCase_spec_witness :
    ∀ c ∈ "background-color".data,
      (c = '-' ∨ c ∈ asciiLower ∨ c ∈ asciiDigits ∨ c = '_') ∧
      c ∉ asciiUpper ∧ c.isWhitespace = false ∧ isJsWhiteSpace c = false :=
  toKebabCase_spec.2.1 " backgroundColor " "background-color" (by decide)

theorem foldl_append_init (l : List String) (init : String) :
    l.foldl (fun r s => r ++ s) init = init ++ l.foldl (fun r s => r ++ s) "" := by
  induction l generalizing init with
  | nil => simp
  | cons x xs ih =>
    simp only [List.foldl_cons]
    rw [ih (init ++ x), ih ("" ++ x)]
    simp [String.append_assoc]

theorem join_cons (x : String) (xs : List String) :
    String.join (x :: xs) = x ++ String.join xs := by
  unfold String.join
  rw [List.foldl_cons, foldl_append_init]
  simp

theorem foldl_lines_eq_join (f : String → String) (keys : List String) (init : String) :
    keys.foldl (fun r k => r ++ f k) init = init ++ String.join (keys.map f) := by
  induction keys generalizing init with
  | nil => simp [String.join]
  | cons k ks ih =>
    rw [List.foldl_cons, ih, List.map_cons, join_cons, String.append_assoc]

/-- C11: for a style object `kebabifyBackgroundStyles` is the concatenation, in
key order, of the lines `<kebab-cased key>: <value>;` of exactly the keys
that begin with `background` and whose value is not the empty string; a
string is returned unchanged; an array, `undefined`, `null`, a boolean or
a number gives the empty string. -/
theorem kebabifyBackgroundStyles_spec :
    (∀ styles : JSObj,
      kebabifyBackgroundStyles (.obj styles) = String.join (backgroundLines styles)) ∧
    (∀ s : String, kebabifyBackgroundStyles (.prim (.str s)) = s) ∧
    (∀ xs : List JSObj, kebabifyBackgroundStyles (.arr xs) = "") ∧
    kebabifyBackgroundStyles (.prim .undefined) = "" ∧
    kebabifyBackgroundStyles (.prim .null) = "" ∧
    (∀ b : Bool, kebabifyBackgroundStyles (.prim (.bool b)) = "") ∧
    (∀ n : Int, kebabifyBackgroundStyles (.prim (.num n)) = "") ∧
    kebabifyBackgroundStyles (.obj [("backgroundRepeat", .str "'repeat-y'"),
        ("color", .str "red"), ("backgroundImage", .str ""),
        ("backgroundSize", .str "'contain'")]) =
      "background-repeat: 'repeat-y';\nbackground-size: 'contain';\n" := by
  refine ⟨?_, fun _ => rfl, fun _ => rfl, rfl, rfl, fun _ => rfl, fun _ => rfl, by decide⟩
  intro styles
  unfold kebabifyBackgroundStyles backgroundLines
  simp only [← kebabString_eq]
  have h := foldl_lines_eq_join
    (fun key => kebabString key ++ ": " ++ (styles.get key).toStr ++ ";\n")
    ((JSObj.keys styles).filter
      (fun key => "background".data.isPrefixOf key.data && styles.get key != .str "")) ""
  simp only [String.append_assoc, toKebabCase, JSPrim.toStr] at h ⊢
  rw [h]
  simp

theorem lower_facts (c : Char) (h : c ∈ asciiLower) :
    c.toLower = c ∧ isWordChar c = true ∧ (c == '-') = false ∧ c.isUpper = false ∧
    isWordChar c.toUpper = true := by
  have hall : ∀ x ∈ asciiLower, x.toLower = x ∧ isWordChar x = true ∧ (x == '-') = false ∧
      x.isUpper = false ∧ isWordChar x.toUpper = true := by decide
  exact hall c h

theorem camelFirstPass_inWord (c : Char) (l : List Char) (h : c ∈ asciiLower) :
    camelFirstPass false true (c :: l) = c :: camelFirstPass false true l := by
  obtain ⟨_, h2, h3, h4, _⟩ := lower_facts c h
  simp [camelFirstPass, h2, h3, h4]

theorem camelFirstPass_wordStart (c : Char) (l : List Char) (h : c ∈ asciiLower) :
    camelFirstPass false false (c :: l) = c.toUpper :: camelFirstPass false true l := by
  obtain ⟨_, h2, h3, h4, _⟩ := lower_facts c h
  simp [camelFirstPass, h2, h3, h4]

theorem camelFirstPass_first (c : Char) (l : List Char) (h : c ∈ asciiLower) :
    camelFirstPass true false (c :: l) = c :: camelFirstPass false true l := by
  obtain ⟨h1, h2, h3, h4, _⟩ := lower_facts c h
  simp [camelFirstPass, h1, h2, h3, h4]

theorem camelFirstPass_hyphen (l : List Char) :
    camelFirstPass false true ('-' :: l) = '-' :: camelFirstPass false false l := by
  have hdash : isWordChar '-' = false := by decide
  have hup : ('-' : Char).toUpper = '-' := by decide
  simp [camelFirstPass, hdash, hup]

theorem camelFirstPass_word (word rest : List Char) (hw : ∀ c ∈ word, c ∈ asciiLower) :
    camelFirstPass false true (word ++ rest) = word ++ camelFirstPass false true rest := by
  induction word with
  | nil => rfl
  | cons c cs ih =>
    rw [List.cons_append, camelFirstPass_inWord c _ (hw c (List.mem_cons_self _ _)),
      ih (fun x hx => hw x (List.mem_cons_of_mem _ hx)), List.cons_append]

theorem camelFirstPass_later (later : List (List Char))
    (hw : ∀ word ∈ later, word ≠ [] ∧ ∀ c ∈ word, c ∈ asciiLower) :
    camelFirstPass false true ((later.map (fun word => '-' :: word)).flatten) =
      (later.map (fun word => '-' :: capitalize word)).flatten := by
  induction later with
  | nil => rfl
  | cons word ws ih =>
    have ih' := ih (fun x hx => hw x (List.mem_cons_of_mem _ hx))
    obtain ⟨hne, hl⟩ := hw word (List.mem_cons_self _ _)
    cases word with
    | nil => exact absurd rfl hne
    | cons c cs =>
      rw [List.map_cons, List.flatten_cons, List.map_cons, List.flatten_cons]
      show camelFirstPass false true ('-' :: (c :: (cs ++ _))) = '-' :: (c.toUpper :: (cs ++ _))
      rw [camelFirstPass_hyphen, camelFirstPass_wordStart c _ (hl c (List.mem_cons_self _ _)),
        camelFirstPass_word cs _ (fun x hx => hl x (List.mem_cons_of_mem _ hx)), ih']

theorem filter_word_lower (word : List Char) (hw : ∀ c ∈ word, c ∈ asciiLower) :
    word.filter isWordChar = word := by
  rw [List.filter_eq_self]
  intro c hc
  exact (lower_facts c (hw c hc)).2.1

theorem filter_later (later : List (List Char))
    (hw : ∀ word ∈ later, word ≠ [] ∧ ∀ c ∈ word, c ∈ asciiLower) :
    ((later.map (fun word => '-' :: capitalize word)).flatten).filter isWordChar =
      (later.map capitalize).flatten := by
  induction later with
  | nil => rfl
  | cons word ws ih =>
    have ih' := ih (fun x hx => hw x (List.mem_cons_of_mem _ hx))
    obtain ⟨hne, hl⟩ := hw word (List.mem_cons_self _ _)
    cases word with
    | nil => exact absurd rfl hne
    | cons c cs =>
      have hc := (lower_facts c (hl c (List.mem_cons_self _ _))).2.2.2.2
      have hcs := filter_word_lower cs (fun x hx => hl x (List.mem_cons_of_mem _ hx))
      have hdash : isWordChar '-' = false := by decide
      rw [List.map_cons, List.flatten_cons, List.map_cons, List.flatten_cons]
      show List.filter isWordChar ('-' :: (c.toUpper :: (cs ++ _))) = c.toUpper :: (cs ++ _)
      rw [List.filter_cons, hdash, List.filter_cons, hc, List.filter_append, hcs, ih']
      simp

theorem kebabOfWords_cons (word : List Char) (later : List (List Char)) :
    kebabOfWords (word :: later) = word ++ (later.map (fun w => '-' :: w)).flatten := by
  unfold kebabOfWords List.intercalate
  induction later generalizing word with
  | nil => simp
  | cons w ws ih =>
    have := ih w
    simp only [List.intersperse_cons₂, List.flatten_cons, List.map_cons] at this ⊢
    rw [this]
    simp

theorem map_toLower_kebab (word : List Char) (later : List (List Char))
    (hw : ∀ w ∈ word :: later, w ≠ [] ∧ ∀ c ∈ w, c ∈ asciiLower) :
    (kebabOfWords (word :: later)).map Char.toLower = kebabOfWords (word :: later) := by
  have hmem : ∀ c ∈ kebabOfWords (word :: later), c.toLower = id c := by
    intro c hc
    rw [kebabOfWords_cons] at hc
    simp only [List.mem_append, List.mem_flatten, List.mem_map] at hc
    rcases hc with hc | ⟨l, ⟨w, hwl, rfl⟩, hc⟩
    · exact (lower_facts c ((hw word (List.mem_cons_self _ _)).2 c hc)).1
    · rcases List.mem_cons.mp hc with rfl | hc
      · decide
      · exact (lower_facts c ((hw w (List.mem_cons_of_mem _ hwl)).2 c hc)).1
  rw [List.map_congr_left hmem, List.map_id]

/-- C12: on a string of one or more non-empty words of lower-case ASCII letters
joined by single hyphens, `toCamelCase` returns the first word followed by
each later word with its first letter upper-cased, the hyphens removed. -/
theorem toCamelCase_kebab (word : List Char) (later : List (List Char))
    (hw : ∀ w ∈ word :: later, w ≠ [] ∧ ∀ c ∈ w, c ∈ asciiLower) :
    toCamelCase (.prim (.str (String.mk (kebabOfWords (word :: later))))) =
      .str (String.mk (camelOfWords (word :: later))) := by
  have hlater : ∀ w ∈ later, w ≠ [] ∧ ∀ c ∈ w, c ∈ asciiLower :=
    fun w h => hw w (List.mem_cons_of_mem _ h)
  obtain ⟨hne, hl⟩ := hw word (List.mem_cons_self _ _)
  have key : (camelFirstPass true false
      ((kebabOfWords (word :: later)).map Char.toLower)).filter isWordChar =
      camelOfWords (word :: later) := by
    rw [map_toLower_kebab word later hw, kebabOfWords_cons]
    cases word with
    | nil => exact absurd rfl hne
    | cons c cs =>
      have h2 := (lower_facts c (hl c (List.mem_cons_self _ _))).2.1
      rw [List.cons_append, camelFirstPass_first c _ (hl c (List.mem_cons_self _ _)),
        camelFirstPass_word cs _ (fun x hx => hl x (List.mem_cons_of_mem _ hx)),
        camelFirstPass_later later hlater, List.filter_cons, h2, List.filter_append,
        filter_word_lower cs (fun x hx => hl x (List.mem_cons_of_mem _ hx)),
        filter_later later hlater]
      simp [camelOfWords]
  show JSPrim.str (camelString _) = _
  unfold camelString
  rw [key]

/-- Witness for C12: `background-color` gives `backgroundColor`. -/
theorem toCamelCase_kebab_witness :
    toCamelCase (.prim (.str "background-color")) = .str "backgroundColor" :=
  toCamelCase_kebab "background".data ["color".data] (by decide)

theorem intercalate_cons_cons (sep x y : List Char) (ys : List (List Char)) :
    List.intercalate sep (x :: y :: ys) = x ++ sep ++ List.intercalate sep (y :: ys) := by
  simp [List.intercalate, List.intersperse_cons₂]

theorem intercalate_cons_of_ne_nil (sep x : List Char) (l : List (List Char)) (h : l ≠ []) :
    List.intercalate sep (x :: l) = x ++ sep ++ List.intercalate sep l := by
  cases l with
  | nil => exact absurd rfl h
  | cons y ys => exact intercalate_cons_cons sep x y ys

theorem splitLoop_ne_nil (sep : List Char) (fuel : Nat) (piece rest : List Char) :
    splitLoop sep fuel piece rest ≠ [] := by
  induction fuel generalizing piece rest with
  | zero => simp [splitLoop]
  | succ n ih =>
    cases rest with
    | nil => simp [splitLoop]
    | cons c cs =>
      unfold splitLoop
      split
      · simp
      · exact ih _ _

theorem splitLoop_intercalate (sep : List Char) (hsep : sep ≠ []) (fuel : Nat)
    (piece rest : List Char) (hfuel : rest.length ≤ fuel) :
    List.intercalate sep (splitLoop sep fuel piece rest) = piece ++ rest := by
  induction fuel generalizing piece rest with
  | zero =>
    have : rest = [] := List.length_eq_zero.mp (Nat.le_zero.mp hfuel)
    subst this
    simp [splitLoop, List.intercalate]
  | succ n ih =>
    cases rest with
    | nil => simp [splitLoop, List.intercalate]
    | cons c cs =>
      have hlen : cs.length ≤ n := by simpa using hfuel
      unfold splitLoop
      split
      · rename_i hpre
        obtain ⟨t, ht⟩ := List.isPrefixOf_iff_prefix.mp hpre
        have hdrop : (c :: cs).drop sep.length = t := by
          rw [← ht, List.drop_left]
        have htlen : t.length ≤ n := by
          have h1 : (c :: cs).length = sep.length + t.length := by
            rw [← ht, List.length_append]
          have h2 : 0 < sep.length := List.length_pos.mpr hsep
          simp only [List.length_cons] at h1
          omega
        rw [intercalate_cons_of_ne_nil _ _ _ (splitLoop_ne_nil _ _ _ _), hdrop,
          ih [] t htlen, ← ht]
        simp
      · rw [ih (piece ++ [c]) cs hlen]
        simp

theorem not_infix_piece (sep piece rest : List Char) (hsep : sep ≠ [])
    (hinv : NoMatchInPiece sep piece rest) : ¬ sep <:+: piece := by
  rintro ⟨a, b, hab⟩
  have hk : a.length < piece.length := by
    have h2 : 0 < sep.length := List.length_pos.mpr hsep
    rw [← hab]
    simp only [List.length_append]
    omega
  apply hinv a.length hk
  refine ⟨b ++ rest, ?_⟩
  rw [← hab]
  simp [List.append_assoc]

theorem splitLoop_free (sep : List Char) (hsep : sep ≠ []) (fuel : Nat)
    (piece rest : List Char) (hfuel : rest.length ≤ fuel)
    (hinv : NoMatchInPiece sep piece rest) :
    ∀ p ∈ splitLoop sep fuel piece rest, ¬ sep <:+: p := by
  induction fuel generalizing piece rest with
  | zero =>
    have : rest = [] := List.length_eq_zero.mp (Nat.le_zero.mp hfuel)
    subst this
    intro p hp
    simp only [splitLoop, List.append_nil, List.mem_singleton] at hp
    subst hp
    exact not_infix_piece sep p [] hsep hinv
  | succ n ih =>
    cases rest with
    | nil =>
      intro p hp
      simp only [splitLoop, List.mem_singleton] at hp
      subst hp
      exact not_infix_piece sep p [] hsep hinv
    | cons c cs =>
      have hlen : cs.length ≤ n := by simpa using hfuel
      unfold splitLoop
      split
      · rename_i hpre
        obtain ⟨t, ht⟩ := List.isPrefixOf_iff_prefix.mp hpre
        have hdrop : (c :: cs).drop sep.length = t := by
          rw [← ht, List.drop_left]
        have htlen : t.length ≤ n := by
          have h1 : (c :: cs).length = sep.length + t.length := by
            rw [← ht, List.length_append]
          have h2 : 0 < sep.length := List.length_pos.mpr hsep
          simp only [List.length_cons] at h1
          omega
        intro p hp
        rcases List.mem_cons.mp hp with rfl | hp
        · exact not_infix_piece sep p (c :: cs) hsep hinv
        · rw [hdrop] at hp
          exact ih [] t htlen (fun k hk => absurd hk (by simp)) p hp
      · rename_i hpre
        apply ih (piece ++ [c]) cs hlen
        intro k hk
        have e : piece ++ [c] ++ cs = piece ++ c :: cs := by simp
        rw [e]
        by_cases hk' : k < piece.length
        · exact hinv k hk'
        · have hk2 : k = piece.length := by
            simp only [List.length_append, List.length_singleton] at hk
            omega
          subst hk2
          rw [List.drop_left]
          intro hp
          exact hpre (List.isPrefixOf_iff_prefix.mpr hp)

theorem intercalate_go_data (sep acc : String) (items : List String) :
    (String.intercalate.go acc sep items).data =
      acc.data ++ (items.map (fun item => sep.data ++ item.data)).flatten := by
  induction items generalizing acc with
  | nil => simp [String.intercalate.go]
  | cons x xs ih =>
    simp [String.intercalate.go, ih, String.data_append, List.append_assoc]

theorem intercalate_data (sep : String) (items : List String) :
    (String.intercalate sep items).data =
      List.intercalate sep.data (items.map String.data) := by
  cases items with
  | nil => rfl
  | cons x xs =>
    simp only [String.intercalate, intercalate_go_data, List.map_cons]
    induction xs generalizing x with
    | nil => simp [List.intercalate]
    | cons y ys ih =>
      rw [List.map_cons, List.map_cons, intercalate_cons_cons, List.flatten_cons, ← ih y]
      simp [List.append_assoc]

theorem data_ne_nil_of_ne_empty (d : String) (hd : d ≠ "") : d.data ≠ [] := by
  intro h
  apply hd
  exact String.ext h

theorem map_data_map_mk (l : List (List Char)) : (l.map String.mk).map String.data = l := by
  induction l with
  | nil => rfl
  | cons x xs ih => rw [List.map_cons, List.map_cons, ih]

/-- What `split` returns for a non-empty separator. -/
theorem jsSplit_spec (s d : String) (hd : d ≠ "") :
    jsSplit s d ≠ [] ∧ (∀ item ∈ jsSplit s d, ¬ occursIn d item) ∧
    String.intercalate d (jsSplit s d) = s := by
  have hsep := data_ne_nil_of_ne_empty d hd
  have hsplit : jsSplit s d = (splitLoop d.data s.data.length [] s.data).map String.mk := by
    simp [jsSplit, hd]
  rw [hsplit]
  refine ⟨?_, ?_, ?_⟩
  · intro h
    exact splitLoop_ne_nil d.data s.data.length [] s.data (List.map_eq_nil_iff.mp h)
  · intro item hitem
    obtain ⟨p, hp, rfl⟩ := List.mem_map.mp hitem
    exact splitLoop_free d.data hsep s.data.length [] s.data (Nat.le_refl _)
      (fun k hk => absurd hk (by simp)) p hp
  · apply String.ext
    rw [intercalate_data, map_data_map_mk,
      splitLoop_intercalate d.data hsep s.data.length [] s.data (Nat.le_refl _)]
    rfl

/-- C14: for every string `s` and non-empty delimiter `d`, `stringToArray`
returns a non-empty list of strings none of which contains `d` and whose
join with `d` is `s`; it is `[s]` when `d` does not occur in `s`; a missing
delimiter stands for a single space. -/
theorem stringToArray_spec (s d : String) (hd : d ≠ "") :
    (∃ items : List String,
      stringToArray (.val (.prim (.str s))) (.str d) = .strings items ∧
      items ≠ [] ∧
      (∀ item ∈ items, ¬ occursIn d item) ∧
      String.intercalate d items = s ∧
      (¬ occursIn d s → items = [s])) ∧
    stringToArray (.val (.prim (.str s))) .undefined =
      stringToArray (.val (.prim (.str s))) (.str " ") := by
  refine ⟨?_, rfl⟩
  by_cases hinc : jsIncludes s d = true
  · obtain ⟨h1, h2, h3⟩ := jsSplit_spec s d hd
    refine ⟨jsSplit s d, ?_, h1, h2, h3, ?_⟩
    · simp [stringToArray, JSPrim.toStr, hinc]
    · intro hno
      exact absurd (by simpa [jsIncludes] using hinc) hno
  · refine ⟨[s], ?_, by simp, ?_, ?_, fun _ => rfl⟩
    · simp [stringToArray, JSPrim.toStr, hinc]
    · intro item hitem
      rw [List.mem_singleton.mp hitem]
      simpa [jsIncludes] using hinc
    · rfl

/-- Witness for C14: a class name list with a doubled space. -/
theorem stringToArray_spec_witness :
    ∃ items : List String,
      stringToArray (.val (.prim (.str "card  hero"))) (.str " ") = .strings items ∧
      items ≠ [] ∧
      (∀ item ∈ items, ¬ occursIn " " item) ∧
      String.intercalate " " items = "card  hero" ∧
      (¬ occursIn " " "card  hero" → items = ["card  hero"]) :=
  (stringToArray_spec "card  hero" " " (by decide)).1

/-- C15: a value that is not a string makes `toCamelCase`, `toKebabCase` and
`hashString` return `false`; `stringToArray` returns an array as it is and
returns `false` for a value that is neither a string nor an array.  All
four are total: no step on these paths can throw. -/
theorem nonString_inputs :
    (∀ v : JSVal, (∀ s, v ≠ .prim (.str s)) →
      toCamelCase v = .bool false ∧ toKebabCase v = .bool false ∧
      hashString v = .bool false) ∧
    (∀ (items : List String) (d : JSPrim), stringToArray (.strings items) d = .strings items) ∧
    (∀ (xs : List JSObj) (d : JSPrim), stringToArray (.val (.arr xs)) d = .val (.arr xs)) ∧
    (∀ (v : JSVal) (d : JSPrim), (∀ s, v ≠ .prim (.str s)) → (∀ xs, v ≠ .arr xs) →
      stringToArray (.val v) d = .val (.prim (.bool false))) := by
  refine ⟨?_, fun _ _ => rfl, fun _ _ => rfl, ?_⟩
  · intro v hv
    cases v with
    | obj o => exact ⟨rfl, rfl, rfl⟩
    | arr xs => exact ⟨rfl, rfl, rfl⟩
    | prim p =>
      cases p with
      | str s => exact absurd rfl (hv s)
      | undefined => exact ⟨rfl, rfl, rfl⟩
      | null => exact ⟨rfl, rfl, rfl⟩
      | bool b => exact ⟨rfl, rfl, rfl⟩
      | num n => exact ⟨rfl, rfl, rfl⟩
  · intro v d hv ha
    cases v with
    | obj o => rfl
    | arr xs => exact absurd rfl (ha xs)
    | prim p =>
      cases p with
      | str s => exact absurd rfl (hv s)
      | undefined => rfl
      | null => rfl
      | bool b => rfl
      | num n => rfl

/-- Witness for C15: the number 3 as a class value. -/
theorem nonString_inputs_witness :
    (toCamelCase (.prim (.num 3)) = .bool false ∧ toKebabCase (.prim (.num 3)) = .bool false ∧
      hashString (.prim (.num 3)) = .bool false) ∧
    stringToArray (.val (.prim (.num 3))) .undefined = .val (.prim (.bool false)) :=
  ⟨nonString_inputs.1 (.prim (.num 3)) (by intro s h; cases h),
    nonString_inputs.2.2.2 (.prim (.num 3)) .undefined (by intro s h; cases h)
      (by intro xs h; cases h)⟩

/-- C17: when the load of an image that is not yet cached fails, the error
callback is called exactly once more, the load callback is not called, and
the cache is as before, so a later lookup of that key still reports not
cached; a failure reported to a probe never changes any cache lookup. -/
theorem load_failure_calls_error_once :
    (∀ (st : LoaderState) (k : String), inImageCache st k = false →
      (loadImage st (.str k) .error).onErrorCalls = st.onErrorCalls + 1 ∧
      (loadImage st (.str k) .error).onLoadCalls = st.onLoadCalls ∧
      (loadImage st (.str k) .error).loaded = st.loaded ∧
      inImageCache (loadImage st (.str k) .error) k = false) ∧
    (∀ (st : LoaderState) (k k' : String),
      (probeEvent k st .error).onErrorCalls = st.onErrorCalls + 1 ∧
      (probeEvent k st .error).onLoadCalls = st.onLoadCalls ∧
      inImageCache (probeEvent k st .error) k' = inImageCache st k') := by
  refine ⟨?_, ?_⟩
  · intro st k hk
    have h : loadImage st (.str k) .error = probeEvent k st .error := by
      simp [loadImage, hk]
    rw [h]
    exact ⟨rfl, rfl, rfl, hk⟩
  · intro st k k'
    exact ⟨rfl, rfl, rfl⟩

/-- Witness for C17: a failing first load with an empty cache. -/
theorem load_failure_calls_error_once_witness :
    (loadImage ⟨[], 0, 0⟩ (.str "test_fluid_image.jpg") .error).onErrorCalls = 0 + 1 ∧
    (loadImage ⟨[], 0, 0⟩ (.str "test_fluid_image.jpg") .error).onLoadCalls = 0 ∧
    (loadImage ⟨[], 0, 0⟩ (.str "test_fluid_image.jpg") .error).loaded = [] ∧
    inImageCache (loadImage ⟨[], 0, 0⟩ (.str "test_fluid_image.jpg") .error)
      "test_fluid_image.jpg" = false :=
  load_failure_calls_error_once.1 ⟨[], 0, 0⟩ "test_fluid_image.jpg" (by decide)

theorem prefix_append_cases {n x b : List Char} (h : n <+: x ++ b) :
    n <+: x ∨ ∃ v, v ≠ [] ∧ n = x ++ v ∧ v <+: b := by
  obtain ⟨t, ht⟩ := h
  rcases List.append_eq_append_iff.mp ht with ⟨a', hx, hb⟩ | ⟨c', hn, hb⟩
  · exact Or.inl ⟨a', hx.symm⟩
  · cases c' with
    | nil => exact Or.inl ⟨[], by simp [hn]⟩
    | cons c cs => exact Or.inr ⟨c :: cs, by simp, hn, ⟨t, hb.symm⟩⟩

theorem occurrences_append {n a b : List Char} (hn : n ≠ []) (hns : NoStraddle n a b) :
    occurrences n (a ++ b) = occurrences n a + occurrences n b := by
  induction a with
  | nil =>
    have h0 : occurrences n [] = 0 := by
      cases n with
      | nil => exact absurd rfl hn
      | cons x xs => simp [occurrences, List.isPrefixOf]
    simp [h0]
  | cons c cs ih =>
    have ih' := ih (fun u v huv hu hv hsuf => hns u v huv hu hv
      (hsuf.trans (List.suffix_cons c cs)))
    have hhead : n.isPrefixOf (c :: cs ++ b) = n.isPrefixOf (c :: cs) := by
      rw [Bool.eq_iff_iff, List.isPrefixOf_iff_prefix, List.isPrefixOf_iff_prefix]
      constructor
      · intro h
        rcases prefix_append_cases h with h | ⟨v, hv, hnv, hvb⟩
        · exact h
        · exact absurd hvb (hns (c :: cs) v hnv (by simp) hv (List.suffix_refl _))
      · intro h
        exact h.trans (List.prefix_append _ _)
    simp only [List.cons_append] at hhead ⊢
    simp only [occurrences, hhead, ih']
    omega

theorem occurrences_eq_zero {n t : List Char} (h : ¬ n <:+: t) : occurrences n t = 0 := by
  induction t with
  | nil =>
    cases n with
    | nil => exact absurd ⟨[], [], rfl⟩ h
    | cons x xs => simp [occurrences, List.isPrefixOf]
  | cons c cs ih =>
    have h1 : n.isPrefixOf (c :: cs) = false := by
      rw [Bool.eq_false_iff]
      intro hp
      exact h (List.isPrefixOf_iff_prefix.mp hp).isInfix
    have h2 : ¬ n <:+: cs := fun hi => h (hi.trans (List.suffix_cons c cs).isInfix)
    simp [occurrences, h1, ih h2]

theorem noStraddle_of_left {n l b : List Char}
    (h : ∀ u ∈ n.inits, u ≠ [] → u ≠ n → ¬ u <:+ l) : NoStraddle n l b := by
  intro u v huv hu hv hsuf _
  refine h u ?_ hu ?_ hsuf
  · rw [List.mem_inits]
    exact ⟨v, huv.symm⟩
  · intro hun
    rw [hun] at huv
    exact hv (by simpa using huv.symm)

theorem noStraddle_of_right {n a lit rest : List Char}
    (h : ∀ v ∈ n.tails, v ≠ [] → v ≠ n → ¬ (v <+: lit ∨ lit <+: v)) :
    NoStraddle n a (lit ++ rest) := by
  intro u v huv hu hv _ hpre
  refine h v ?_ hv ?_ ?_
  · rw [List.mem_tails]
    exact ⟨u, huv.symm⟩
  · intro hvn
    rw [hvn] at huv
    exact hu (by simpa using huv.symm)
  · rcases prefix_append_cases hpre with h1 | ⟨w, _, hw, _⟩
    · exact Or.inl h1
    · exact Or.inr ⟨w, hw.symm⟩

theorem noStraddle_of_right_value {n a lit rest m : List Char}
    (h : ∀ v ∈ n.tails, v ≠ [] → v ≠ n → (v <+: lit ∨ lit <+: v) → n = m ++ v)
    (ha : ¬ m <:+: a) : NoStraddle n a (lit ++ rest) := by
  intro u v huv hu hv hsuf hpre
  have hcompat : v <+: lit ∨ lit <+: v := by
    rcases prefix_append_cases hpre with h1 | ⟨w, _, hw, _⟩
    · exact Or.inl h1
    · exact Or.inr ⟨w, hw.symm⟩
  have hmv := h v (by rw [List.mem_tails]; exact ⟨u, huv.symm⟩) hv
    (by
      intro hvn
      rw [hvn] at huv
      exact hu (by simpa using huv.symm)) hcompat
  have hum : u = m := List.append_cancel_right (huv.symm.trans hmv)
  exact ha (hum ▸ hsuf.isInfix)

theorem occ_left_lit {n l b : List Char} (hn : n ≠ [])
    (h : ∀ u ∈ n.inits, u ≠ [] → u ≠ n → ¬ u <:+ l) :
    occurrences n (l ++ b) = occurrences n l + occurrences n b :=
  occurrences_append hn (noStraddle_of_left h)

theorem occ_right_lit {n a lit rest : List Char} (hn : n ≠ [])
    (h : ∀ v ∈ n.tails, v ≠ [] → v ≠ n → ¬ (v <+: lit ∨ lit <+: v)) :
    occurrences n (a ++ (lit ++ rest)) = occurrences n a + occurrences n (lit ++ rest) :=
  occurrences_append hn (noStraddle_of_right h)

theorem occ_right_lit_end {n a lit : List Char} (hn : n ≠ [])
    (h : ∀ v ∈ n.tails, v ≠ [] → v ≠ n → ¬ (v <+: lit ∨ lit <+: v)) :
    occurrences n (a ++ lit) = occurrences n a + occurrences n lit := by
  have := @occ_right_lit n a lit [] hn h
  simpa using this

theorem declarationHead_free (x : String) (h : ¬ occursIn "background-image" x) :
    ¬ "background-image:".data <:+: x.data := by
  intro hi
  apply h
  have hm : "background-image".data <:+: "background-image:".data := by decide
  exact hm.trans hi

theorem occ_imageDeclaration (image : JSPrim)
    (h : ¬ occursIn "background-image" image.toStr) :
    occurrences "background-image:".data (imageDeclaration image).data = 1 := by
  have hN : "background-image:".data ≠ [] := by decide
  unfold imageDeclaration
  simp only [String.data_append, List.append_assoc]
  rw [occ_left_lit hN (by decide), occ_right_lit_end hN (by decide),
    occurrences_eq_zero (declarationHead_free _ h)]
  decide

theorem occ_skip_lit {n l b : List Char} (hn : n ≠ [])
    (h : ∀ u ∈ n.inits, u ≠ [] → u ≠ n → ¬ u <:+ l) (hz : occurrences n l = 0) :
    occurrences n (l ++ b) = occurrences n b := by
  rw [occ_left_lit hn h, hz, Nat.zero_add]

theorem occ_skip_value {n a lit rest : List Char} (hn : n ≠ [])
    (h : ∀ v ∈ n.tails, v ≠ [] → v ≠ n → ¬ (v <+: lit ∨ lit <+: v)) (ha : ¬ n <:+: a) :
    occurrences n (a ++ (lit ++ rest)) = occurrences n (lit ++ rest) := by
  rw [occ_right_lit hn h, occurrences_eq_zero ha, Nat.zero_add]

theorem occ_skip_classId {n a lit rest m : List Char} (hn : n ≠ [])
    (h : ∀ v ∈ n.tails, v ≠ [] → v ≠ n → (v <+: lit ∨ lit <+: v) → n = m ++ v)
    (hm : m <:+: n) (ha : ¬ m <:+: a) :
    occurrences n (a ++ (lit ++ rest)) = occurrences n (lit ++ rest) := by
  rw [occurrences_append hn (noStraddle_of_right_value h ha),
    occurrences_eq_zero (fun hi => ha (hm.trans hi)), Nat.zero_add]

theorem occ_bgColorDeclaration (bgColor : JSPrim)
    (h : ¬ occursIn "background-image" bgColor.toStr) :
    occurrences "background-image:".data (bgColorDeclaration bgColor).data = 0 := by
  have hN : "background-image:".data ≠ [] := by decide
  unfold bgColorDeclaration
  split
  · simp only [String.data_append, List.append_assoc]
    rw [occ_skip_lit hN (by decide) (by decide),
      occ_right_lit_end hN (by decide), occurrences_eq_zero (declarationHead_free _ h)]
    decide
  · exact occurrences_eq_zero (declarationHead_free _ h)

theorem occ_declarationOf_before (a : PseudoStyleArgs)
    (hl : ¬ occursIn "background-image" a.lastImage.toStr)
    (hb : ¬ occursIn "background-image" a.bgImage.toStr)
    (hn : ¬ occursIn "background-image" a.nextImage.toStr) :
    occurrences "background-image:".data (declarationOf (beforeImage a)).data =
      if (beforeImage a).isSome then 1 else 0 := by
  unfold beforeImage
  split
  · split
    · simpa [declarationOf] using occ_imageDeclaration _ hn
    · split
      · simpa [declarationOf] using occ_imageDeclaration _ hb
      · decide
  · split
    · simpa [declarationOf] using occ_imageDeclaration _ hl
    · decide

theorem occ_declarationOf_after (a : PseudoStyleArgs)
    (hl : ¬ occursIn "background-image" a.lastImage.toStr)
    (hb : ¬ occursIn "background-image" a.bgImage.toStr)
    (hn : ¬ occursIn "background-image" a.nextImage.toStr) :
    occurrences "background-image:".data (declarationOf (afterImage a)).data =
      if (afterImage a).isSome then 1 else 0 := by
  unfold afterImage
  split
  · split
    · simpa [declarationOf] using occ_imageDeclaration _ hl
    · decide
  · split
    · simpa [declarationOf] using occ_imageDeclaration _ hb
    · split
      · simpa [declarationOf] using occ_imageDeclaration _ hn
      · decide

set_option maxRecDepth 100000 in
theorem pseudoBeforeBlock_eq (a : PseudoStyleArgs) :
    pseudoBeforeBlock a =
      "          .gatsby-background-image-" ++ a.classId.toStr ++ ":before \x7b\n" ++
      "            z-index: -100;\n" ++
      "            " ++
        (if a.afterOpacity.truthy then "" else declarationOf (beforeImage a)) ++ "\n" ++
      "            " ++
        (if a.afterOpacity.truthy then declarationOf (beforeImage a) else "") ++ "\n" ++
      "            " ++ bgColorDeclaration a.bgColor ++ "\n" ++
      "            opacity: " ++ a.afterOpacity.toStr ++ "; \n" ++
      "          \x7d\n" := by
  unfold pseudoBeforeBlock beforeImage
  by_cases h1 : a.afterOpacity.truthy = true <;>
    by_cases h2 : a.nextImage.truthy = true <;>
    by_cases h3 : a.bgImage.truthy = true <;>
    by_cases h4 : a.lastImage = .str "" <;>
    simp [h1, h2, h3, h4, declarationOf, imageDeclaration]

set_option maxRecDepth 100000 in
theorem pseudoAfterBlock_eq (a : PseudoStyleArgs) :
    pseudoAfterBlock a =
      "          .gatsby-background-image-" ++ a.classId.toStr ++ ":after \x7b\n" ++
      "            z-index: -101;\n" ++
      "            " ++
        (if a.afterOpacity.truthy then declarationOf (afterImage a) else "") ++ "\n" ++
      "            " ++
        (if a.afterOpacity.truthy then "" else declarationOf (afterImage a)) ++ "\n" ++
      "            " ++ bgColorDeclaration a.bgColor ++ "\n" ++
      "          \x7d\n" := by
  unfold pseudoAfterBlock afterImage
  by_cases h1 : a.afterOpacity.truthy = true <;>
    by_cases h2 : a.nextImage.truthy = true <;>
    by_cases h3 : a.bgImage.truthy = true <;>
    by_cases h4 : a.lastImage = .str "" <;>
    simp [h1, h2, h3, h4, declarationOf, imageDeclaration]

set_option maxRecDepth 100000 in
theorem occurrences_beforeBlock (a : PseudoStyleArgs)
    (hc : ¬ occursIn "background-image" a.classId.toStr)
    (hl : ¬ occursIn "background-image" a.lastImage.toStr)
    (hb : ¬ occursIn "background-image" a.bgImage.toStr)
    (hn : ¬ occursIn "background-image" a.nextImage.toStr)
    (hg : ¬ occursIn "background-image" a.bgColor.toStr)
    (ho : ¬ occursIn "background-image" a.afterOpacity.toStr) :
    occurrences "background-image:".data (pseudoBeforeBlock a).data =
      if (beforeImage a).isSome then 1 else 0 := by
  have hN : "background-image:".data ≠ [] := by decide
  have hd := occ_declarationOf_before a hl hb hn
  have hbg := occ_bgColorDeclaration a.bgColor hg
  have h0 : occurrences "background-image:".data "".data = 0 := by decide
  rw [pseudoBeforeBlock_eq]
  simp only [String.data_append, List.append_assoc]
  rw [occ_skip_lit hN (by decide) (by decide),
    occ_skip_classId hN (m := "background-image".data) (by decide) (by decide) hc,
    occ_skip_lit hN (by decide) (by decide),
    occ_skip_lit hN (by decide) (by decide),
    occ_skip_lit hN (by decide) (by decide),
    occ_right_lit hN (by decide),
    occ_skip_lit hN (by decide) (by decide),
    occ_skip_lit hN (by decide) (by decide),
    occ_right_lit hN (by decide),
    occ_skip_lit hN (by decide) (by decide),
    occ_skip_lit hN (by decide) (by decide),
    occ_right_lit hN (by decide), hbg,
    occ_skip_lit hN (by decide) (by decide),
    occ_skip_lit hN (by decide) (by decide),
    occ_skip_value hN (by decide) (declarationHead_free _ ho),
    show occurrences "background-image:".data ("; \n".data ++ "          \x7d\n".data) = 0
      from by decide]
  by_cases ht : a.afterOpacity.truthy = true
  · simp [ht, h0, hd]
  · simp [ht, h0, hd]

set_option maxRecDepth 100000 in
theorem occurrences_afterBlock (a : PseudoStyleArgs)
    (hc : ¬ occursIn "background-image" a.classId.toStr)
    (hl : ¬ occursIn "background-image" a.lastImage.toStr)
    (hb : ¬ occursIn "background-image" a.bgImage.toStr)
    (hn : ¬ occursIn "background-image" a.nextImage.toStr)
    (hg : ¬ occursIn "background-image" a.bgColor.toStr) :
    occurrences "background-image:".data (pseudoAfterBlock a).data =
      if (afterImage a).isSome then 1 else 0 := by
  have hN : "background-image:".data ≠ [] := by decide
  have hd := occ_declarationOf_after a hl hb hn
  have hbg := occ_bgColorDeclaration a.bgColor hg
  have h0 : occurrences "background-image:".data "".data = 0 := by decide
  rw [pseudoAfterBlock_eq]
  simp only [String.data_append, List.append_assoc]
  rw [occ_skip_lit hN (by decide) (by decide),
    occ_skip_classId hN (m := "background-image".data) (by decide) (by decide) hc,
    occ_skip_lit hN (by decide) (by decide),
    occ_skip_lit hN (by decide) (by decide),
    occ_skip_lit hN (by decide) (by decide),
    occ_right_lit hN (by decide),
    occ_skip_lit hN (by decide) (by decide),
    occ_skip_lit hN (by decide) (by decide),
    occ_right_lit hN (by decide),
    occ_skip_lit hN (by decide) (by decide),
    occ_skip_lit hN (by decide) (by decide),
    occ_right_lit hN (by decide), hbg,
    show occurrences "background-image:".data ("\n".data ++ "          \x7d\n".data) = 0
      from by decide]
  by_cases ht : a.afterOpacity.truthy = true
  · simp [ht, h0, hd]
  · simp [ht, h0, hd]

set_option maxRecDepth 100000 in
/-- C18: each of the two rules is the template with one image slot filled and
the other empty.  With a truthy `afterOpacity` the `:before` rule holds the
declaration of `nextImage` (of `bgImage` if `nextImage` is empty) in its
second slot and the `:after` rule that of `lastImage` in its first; with a
falsy `afterOpacity` the `:before` rule holds that of `lastImage` in its
first slot and the `:after` rule that of `bgImage` (of `nextImage` if
`bgImage` is empty) in its second.  So no rule holds two `background-image`
declarations: unless an interpolated value itself holds the text
`background-image`, the text `background-image:` occurs in a rule once if
the rule gets an image and not at all otherwise. -/
theorem createPseudoStyles_image_assignment :
    (∀ a : PseudoStyleArgs,
      pseudoBeforeBlock a =
        "          .gatsby-background-image-" ++ a.classId.toStr ++ ":before \x7b\n" ++
        "            z-index: -100;\n" ++
        "            " ++
          (if a.afterOpacity.truthy then "" else declarationOf (beforeImage a)) ++ "\n" ++
        "            " ++
          (if a.afterOpacity.truthy then declarationOf (beforeImage a) else "") ++ "\n" ++
        "            " ++ bgColorDeclaration a.bgColor ++ "\n" ++
        "            opacity: " ++ a.afterOpacity.toStr ++ "; \n" ++
        "          \x7d\n") ∧
    (∀ a : PseudoStyleArgs,
      pseudoAfterBlock a =
        "          .gatsby-background-image-" ++ a.classId.toStr ++ ":after \x7b\n" ++
        "            z-index: -101;\n" ++
        "            " ++
          (if a.afterOpacity.truthy then declarationOf (afterImage a) else "") ++ "\n" ++
        "            " ++
          (if a.afterOpacity.truthy then "" else declarationOf (afterImage a)) ++ "\n" ++
        "            " ++ bgColorDeclaration a.bgColor ++ "\n" ++
        "          \x7d\n") ∧
    (∀ a : PseudoStyleArgs,
      createPseudoStyles a =
        "\n" ++ pseudoSharedBlock a ++ pseudoBeforeBlock a ++ pseudoAfterBlock a ++ "        ") ∧
    (∀ a : PseudoStyleArgs,
      ¬ occursIn "background-image" a.classId.toStr →
      ¬ occursIn "background-image" a.lastImage.toStr →
      ¬ occursIn "background-image" a.bgImage.toStr →
      ¬ occursIn "background-image" a.nextImage.toStr →
      ¬ occursIn "background-image" a.bgColor.toStr →
      ¬ occursIn "background-image" a.afterOpacity.toStr →
      occurrences "background-image:".data (pseudoBeforeBlock a).data =
        (if (beforeImage a).isSome then 1 else 0) ∧
      occurrences "background-image:".data (pseudoAfterBlock a).data =
        (if (afterImage a).isSome then 1 else 0)) ∧
    occursIn "background-image: url(n.jpg);" (pseudoBeforeBlock loadedArgs) ∧
    occursIn "background-image: url(l.jpg);" (pseudoBeforeBlock fadingArgs) ∧
    occursIn "background-image: url(a.jpg);" (pseudoAfterBlock fadingArgs) := by
  refine ⟨pseudoBeforeBlock_eq, pseudoAfterBlock_eq, fun _ => rfl, ?_, by decide, by decide,
    by decide⟩
  intro a hc hl hb hn hg ho
  exact ⟨occurrences_beforeBlock a hc hl hb hn hg ho, occurrences_afterBlock a hc hl hb hn hg⟩

set_option maxRecDepth 100000 in
/-- Witness for C18: the arguments while the next image is loading. -/
theorem createPseudoStyles_image_assignment_witness :
    occurrences "background-image:".data (pseudoBeforeBlock fadingArgs).data =
      (if (beforeImage fadingArgs).isSome then 1 else 0) ∧
    occurrences "background-image:".data (pseudoAfterBlock fadingArgs).data =
      (if (afterImage fadingArgs).isSome then 1 else 0) :=
  createPseudoStyles_image_assignment.2.2.2.1 fadingArgs (by decide) (by decide) (by decide)
    (by decide) (by decide) (by decide)

end GatsbyBackgroundImage
